import Mathlib

/-!
Shallow embedding of the intrusive red-black tree of `src/rbtree/rbtree_template.h`.

The C code works on caller-owned node records linked by raw pointers, with the
parent pointer and the one-bit color packed into one word.  We model the heap as
a total function from node identifiers (`Nat`) to node records, and a tree
handle as the root pointer (`Option Nat`, `none` being `NULL`).  The spec
(§3 of spec.md) states that the packed parent+color word is an optimization and
not part of the logical model, so the node record carries `parent` and `black`
as separate fields; each C accessor that preserves the other half of the packed
word is modelled by an update that preserves the corresponding field.

C `while` loops become fuel-indexed recursions; dereferencing a `NULL` pointer
(which in the C is an assertion failure / undefined behaviour) and running out
of fuel both yield `none`, so every operation that contains a loop or a
mandatory dereference returns `Option`.

The key type and the strict-less-than relation are template parameters of the
C header (`KEY_TYPE`, `KEY_IS_STRICTLY_LESS`); they are section variables here.
-/

namespace RB

/-- A node record: `left_ptr`, `right_ptr`, the parent pointer and the color
bit (separated out of `__parent_ptr_with_color_bit`), and the embedded key. -/
structure Node (K : Type) where
  parent : Option Nat
  black  : Bool
  left   : Option Nat
  right  : Option Nat
  key    : K
deriving Repr, DecidableEq

/-- The mutable state a tree operation sees: the root pointer (`*rootptr_ptr`)
and the heap of caller-owned nodes. -/
structure State (K : Type) where
  root : Option Nat
  mem  : Nat → Node K

section Ops

variable {K : Type}

/-- Store a node record at pointer `p`. -/
def State.write (st : State K) (p : Nat) (nd : Node K) : State K :=
  { st with mem := fun q => if q = p then nd else st.mem q }

/-- `internal_NAME_node_set_color_to_red`: clear the color bit, keeping the
parent half of the word. -/
def setColorToRed (st : State K) (p : Nat) : State K :=
  st.write p { st.mem p with black := false }

/-- `internal_NAME_node_set_color_to_black`: set the color bit, keeping the
parent half of the word. -/
def setColorToBlack (st : State K) (p : Nat) : State K :=
  st.write p { st.mem p with black := true }

/-- `internal_NAME_node_set_color_to_color_of_other`. -/
def setColorToColorOfOther (st : State K) (p other : Nat) : State K :=
  st.write p { st.mem p with black := (st.mem other).black }

/-- `internal_NAME_node_set_parent_ptr`: replace the parent half of the word,
keeping the color bit. -/
def setParentPtr (st : State K) (p : Nat) (par : Option Nat) : State K :=
  st.write p { st.mem p with parent := par }

/-- `node_ptr->child_ptrs[dir]` with `false` for index `0` (left) and `true`
for index `1` (right). -/
def child (st : State K) (p : Nat) (dir : Bool) : Option Nat :=
  if dir then (st.mem p).right else (st.mem p).left

/-- Assignment `node_ptr->child_ptrs[dir] = c`. -/
def setChild (st : State K) (p : Nat) (dir : Bool) (c : Option Nat) : State K :=
  if dir then st.write p { st.mem p with right := c }
  else st.write p { st.mem p with left := c }

/-- `RBTREE_CHILD_DIR(node_ptr)`: `node == parent->left ? 0 : 1`.  The macro
dereferences the parent pointer, so a node without a parent yields `none`. -/
def childDir (st : State K) (p : Nat) : Option Bool :=
  match (st.mem p).parent with
  | none => none
  | some g => some (!(decide ((st.mem g).left = some p)))

/-- `X != NULL && RBTREE_NODE_IS_RED(X)` for a possibly-NULL pointer `X`. -/
def isRedO (st : State K) (x : Option Nat) : Bool :=
  match x with
  | none => false
  | some p => !(st.mem p).black

/-- `NAME_init`: `*rootptr_ptr = NULL`. -/
def init (st : State K) : State K :=
  { st with root := none }

/-- `NAME_node_init`: store the key, clear both child pointers, and clear the
parent half of the packed word. -/
def node_init (st : State K) (p : Nat) (k : K) : State K :=
  let st := st.write p { st.mem p with key := k }
  let st := st.write p { st.mem p with left := none, right := none }
  setParentPtr st p none

/-- `NAME_is_empty`: `*rootptr_ptr == NULL`. -/
def is_empty (st : State K) : Bool :=
  st.root.isNone

variable (lt : K → K → Bool)

/-- The loop of `NAME_contains_key`, descending from `node_ptr`. -/
def contains_go (st : State K) (key : K) : Nat → Option Nat → Option Bool
  | _, none => some false
  | 0, some _ => none
  | fuel + 1, some p =>
    let isStrictlyLess := lt key (st.mem p).key
    let isStrictlyGreater := lt (st.mem p).key key
    if !isStrictlyLess && !isStrictlyGreater then some true
    else if isStrictlyLess then contains_go st key fuel (st.mem p).left
    else contains_go st key fuel (st.mem p).right

/-- `NAME_contains_key`. -/
def contains_key (st : State K) (key : K) (fuel : Nat) : Option Bool :=
  contains_go lt st key fuel st.root

/-- The loop of `NAME_search_node`, descending from `node_ptr`.  The inner
`Option Nat` is the returned pointer (`none` = returned `NULL`); the outer
`Option` is fuel exhaustion. -/
def search_go (st : State K) (key : K) : Nat → Option Nat → Option (Option Nat)
  | _, none => some none
  | 0, some _ => none
  | fuel + 1, some p =>
    let isStrictlyLess := lt key (st.mem p).key
    let isStrictlyGreater := lt (st.mem p).key key
    if !isStrictlyLess && !isStrictlyGreater then some (some p)
    else if isStrictlyLess then search_go st key fuel (st.mem p).left
    else search_go st key fuel (st.mem p).right

/-- `NAME_search_node`. -/
def search_node (st : State K) (key : K) (fuel : Nat) : Option (Option Nat) :=
  search_go lt st key fuel st.root

/-- `if (C != NULL) { RBTREE_NODE_SET_PARENT_PTR(C, ...); }`: set the parent
pointer of a node that may be `NULL`, doing nothing on `NULL`. -/
def setParentPtrIfSome (st : State K) (x : Option Nat) (par : Option Nat) :
    State K :=
  match x with
  | none => st
  | some p => setParentPtr st p par

/-- `internal_NAME_rotate_dir`: rotate around pivot `P` in direction `dir`
(`false` = left rotation index `0`, `true` = right rotation index `1`).
The C asserts `S != NULL`; a missing `S` yields `none`.  Returns the updated
state together with the returned pointer `S`. -/
def rotate_dir (st : State K) (P : Nat) (dir : Bool) : Option (State K × Nat) :=
  let G := (st.mem P).parent
  match child st P (!dir) with
  | none => none
  | some S =>
    let C := child st S dir
    let st := setChild st P (!dir) C
    let st := setParentPtrIfSome st C (some P)
    let st := setChild st S dir (some P)
    let st := setParentPtr st P (some S)
    let st := setParentPtr st S G
    let st := match G with
      | some g =>
        setChild st g (if (st.mem g).left = some P then false else true) (some S)
      | none => { st with root := some S }
    some (st, S)

/-- The do-while loop of `internal_NAME_insert_fixup`, with current node `N`
and its parent `P` (the loop guard `P != NULL` has been checked).  Fuel is
consumed only at the back edge (the red-uncle case). -/
def insert_fixup_go (st : State K) (N P : Nat) (fuel : Nat) : Option (State K) :=
    if (st.mem P).black then some st
    else match (st.mem P).parent with
      | none => some (setColorToBlack st P)
      | some G =>
        let dir : Bool := !(decide ((st.mem G).left = some P))
        let U := child st G (!dir)
        if !(isRedO st U) then
          (if some N = child st P (!dir) then
            match rotate_dir st P dir with
            | none => none
            | some (st1, _) =>
              match child st1 G dir with
              | none => none
              | some P' => some (st1, P')
          else some (st, P)) |>.bind fun (st2, P2) =>
          let st3 := setColorToBlack st2 P2
          let st4 := setColorToRed st3 G
          match rotate_dir st4 G (!dir) with
          | none => none
          | some (st5, _) => some st5
        else
          match U with
          | none => none
          | some u =>
            let st1 := setColorToBlack st P
            let st2 := setColorToBlack st1 u
            let st3 := setColorToRed st2 G
            match (st3.mem G).parent with
            | none => some st3
            | some P' =>
              match fuel with
              | 0 => none
              | fuel + 1 => insert_fixup_go st3 G P' fuel

/-- `internal_NAME_insert_fixup`: reads `P = parent(N)` and enters the
do-while loop; a `NULL` parent would be dereferenced by the first iteration. -/
def insert_fixup (st : State K) (N : Nat) (fuel : Nat) : Option (State K) :=
  match (st.mem N).parent with
  | none => none
  | some P => insert_fixup_go st N P fuel

/-- The descent loop of `NAME_insert_node`, returning the final
`parent_ptr` candidate. -/
def insert_descend (st : State K) (key : K) :
    Nat → Option Nat → Option Nat → Option (Option Nat)
  | _, parentPtr, none => some parentPtr
  | 0, _, some _ => none
  | fuel + 1, _, some cur =>
    let isStrictlyGreater := lt (st.mem cur).key key
    if isStrictlyGreater then insert_descend st key fuel (some cur) (st.mem cur).right
    else insert_descend st key fuel (some cur) (st.mem cur).left

/-- `NAME_insert_node`. -/
def insert_node (st : State K) (nodeP : Nat) (fuel : Nat) : Option (State K) :=
  (insert_descend lt st ((st.mem nodeP).key) fuel none st.root).bind fun parentPtr =>
  let st := st.write nodeP { st.mem nodeP with left := none, right := none }
  let st := setParentPtr st nodeP parentPtr
  let st := setColorToRed st nodeP
  match parentPtr with
  | none => some { st with root := some nodeP }
  | some par =>
    let dir : Bool := lt (st.mem par).key (st.mem nodeP).key
    let st := setChild st par dir (some nodeP)
    insert_fixup st nodeP fuel

/-- `internal_NAME_node_transplant`. -/
def node_transplant (st : State K) (src : Nat) (dest : Option Nat) : State K :=
  let srcParent := (st.mem src).parent
  let st :=
    match srcParent with
    | none => { st with root := dest }
    | some sp =>
      setChild st sp (if (st.mem sp).left = some src then false else true) dest
  match dest with
  | none => st
  | some dn => setParentPtr st dn srcParent

/-- `Case_6` of `internal_NAME_delete_fixup`. -/
def delete_case6 (st : State K) (P S D : Nat) (dir : Bool) : Option (State K) :=
  match rotate_dir st P dir with
  | none => none
  | some (st1, _) =>
    let st2 := setColorToColorOfOther st1 S P
    let st3 := setColorToBlack st2 P
    some (setColorToBlack st3 D)

/-- `Case_5` of `internal_NAME_delete_fixup`: falls through into `Case_6`
with `D = S; S = C`. -/
def delete_case5 (st : State K) (P S C : Nat) (dir : Bool) : Option (State K) :=
  match rotate_dir st S (!dir) with
  | none => none
  | some (st1, _) =>
    let st2 := setColorToRed st1 S
    let st3 := setColorToBlack st2 C
    delete_case6 st3 P C S dir

/-- `Case_4` of `internal_NAME_delete_fixup`. -/
def delete_case4 (st : State K) (P S : Nat) : State K :=
  setColorToBlack (setColorToRed st S) P

/-- `Case_3` of `internal_NAME_delete_fixup`: after the rotation and the
recoloring, `S = C` and the remaining cases are re-checked in order, falling
through to `Case_4` when neither nephew is red. -/
def delete_case3 (st : State K) (P S : Nat) (C : Option Nat) (dir : Bool) :
    Option (State K) :=
  match rotate_dir st P dir with
  | none => none
  | some (st1, _) =>
    let st2 := setColorToRed st1 P
    let st3 := setColorToBlack st2 S
    match C with
    | none => none
    | some S2 =>
      let D2 := child st3 S2 (!dir)
      if isRedO st3 D2 then
        match D2 with
        | none => none
        | some d2 => delete_case6 st3 P S2 d2 dir
      else
        let C2 := child st3 S2 dir
        if isRedO st3 C2 then
          match C2 with
          | none => none
          | some c2 => delete_case5 st3 P S2 c2 dir
        else some (delete_case4 st3 P S2)

/-- The do-while loop of `internal_NAME_delete_fixup`.  Fuel is consumed only
at the back edge (the both-nephews-black, parent-black case). -/
def delete_fixup_go (st : State K) (P : Nat) (dir : Bool) (fuel : Nat) :
    Option (State K) :=
    match child st P (!dir) with
    | none => none
    | some S =>
      let D := child st S (!dir)
      let C := child st S dir
      if !(st.mem S).black then delete_case3 st P S C dir
      else if isRedO st D then
        match D with
        | none => none
        | some d => delete_case6 st P S d dir
      else if isRedO st C then
        match C with
        | none => none
        | some c => delete_case5 st P S c dir
      else if !(st.mem P).black then some (delete_case4 st P S)
      else
        let st1 := setColorToRed st S
        match (st1.mem P).parent with
        | none => some st1
        | some P2 =>
          let dir2 : Bool := !(decide ((st1.mem P2).left = some P))
          match fuel with
          | 0 => none
          | fuel + 1 => delete_fixup_go st1 P2 dir2 fuel

/-- The `while (successor_ptr->left_ptr != NULL)` loop of `NAME_delete_node`. -/
def leftmost (st : State K) (fuel : Nat) (cur : Nat) : Option Nat :=
    match (st.mem cur).left with
    | none => some cur
    | some l =>
      match fuel with
      | 0 => none
      | fuel + 1 => leftmost st fuel l

/-- The case analysis of `NAME_delete_node` (everything before the final
reinitialization of the deleted node's links). -/
def delete_node_main (st : State K) (nodeP : Nat) (fuel : Nat) :
    Option (State K) :=
  (match (st.mem nodeP).left, (st.mem nodeP).right with
   | none, none =>
     if decide (st.root = some nodeP) || !(st.mem nodeP).black then
       some (node_transplant st nodeP none)
     else
       match (st.mem nodeP).parent with
       | none => none
       | some par =>
         let dir : Bool := !(decide ((st.mem par).left = some nodeP))
         let st1 := node_transplant st nodeP none
         delete_fixup_go st1 par dir fuel
   | none, some _ | some _, none =>
     let dir : Bool := decide ((st.mem nodeP).left = none)
     match child st nodeP dir with
     | none => none
     | some ch =>
       let st1 := setColorToBlack st ch
       some (node_transplant st1 nodeP (some ch))
   | some _, some r =>
     (leftmost st fuel r).bind fun succ =>
     let prevSuccessorBlack := (st.mem succ).black
     match (st.mem succ).parent with
     | none => none
     | some pp =>
       let prevSuccessorDir : Bool := !(decide ((st.mem pp).left = some succ))
       let prevSuccessorChild := (st.mem succ).right
       (if pp ≠ nodeP then
          let st1 := node_transplant st succ (st.mem succ).right
          let st2 := st1.write succ { st1.mem succ with right := (st1.mem nodeP).right }
          match (st2.mem nodeP).right with
          | none => none
          | some nr => some (setParentPtr st2 nr succ)
        else some st).bind fun st3 =>
       let st4 := node_transplant st3 nodeP (some succ)
       let st5 := st4.write succ { st4.mem succ with left := (st4.mem nodeP).left }
       (match (st5.mem nodeP).left with
        | none => none
        | some nl => some (setParentPtr st5 nl succ)).bind fun st6 =>
       let st7 := setColorToColorOfOther st6 succ nodeP
       match prevSuccessorChild with
       | some pc => some (setColorToBlack st7 pc)
       | none =>
         if prevSuccessorBlack then
           let actualSuccessor := if pp = nodeP then succ else pp
           delete_fixup_go st7 actualSuccessor prevSuccessorDir fuel
         else some st7)

/-- `NAME_delete_node`.  Returns the updated state and the returned pointer
(the deleted node, reinitialized: `left_ptr`, `right_ptr` and the parent
half of the packed word cleared). -/
def delete_node (st : State K) (nodeP : Nat) (fuel : Nat) :
    Option (State K × Nat) :=
  (delete_node_main st nodeP fuel).bind fun st1 =>
  let st2 := st1.write nodeP { st1.mem nodeP with left := none, right := none }
  let st3 := setParentPtr st2 nodeP none
  some (st3, nodeP)

end Ops

/-! ## Basic lemmas about the heap primitives -/

section BasicLemmas

variable {K : Type}

theorem mem_write (st : State K) (p q : Nat) (nd : Node K) :
    (st.write p nd).mem q = if q = p then nd else st.mem q := rfl

theorem root_write (st : State K) (p : Nat) (nd : Node K) :
    (st.write p nd).root = st.root := rfl

@[simp] theorem key_setColorToRed (st : State K) (p q : Nat) :
    ((setColorToRed st p).mem q).key = (st.mem q).key := by
  by_cases h : q = p <;> simp [setColorToRed, State.write, h]

@[simp] theorem key_setColorToBlack (st : State K) (p q : Nat) :
    ((setColorToBlack st p).mem q).key = (st.mem q).key := by
  by_cases h : q = p <;> simp [setColorToBlack, State.write, h]

@[simp] theorem key_setColorToColorOfOther (st : State K) (p o q : Nat) :
    ((setColorToColorOfOther st p o).mem q).key = (st.mem q).key := by
  by_cases h : q = p <;> simp [setColorToColorOfOther, State.write, h]

@[simp] theorem key_setParentPtr (st : State K) (p q : Nat) (par : Option Nat) :
    ((setParentPtr st p par).mem q).key = (st.mem q).key := by
  by_cases h : q = p <;> simp [setParentPtr, State.write, h]

@[simp] theorem key_setChild (st : State K) (p q : Nat) (dir : Bool) (c : Option Nat) :
    ((setChild st p dir c).mem q).key = (st.mem q).key := by
  cases dir <;> by_cases h : q = p <;> simp [setChild, State.write, h]

@[simp] theorem key_root_update (st : State K) (r : Option Nat) (q : Nat) :
    ((State.mk r st.mem).mem q).key = (st.mem q).key := rfl

@[simp] theorem key_setParentPtrIfSome {K : Type} (st : State K)
    (x par : Option Nat) (q : Nat) :
    ((setParentPtrIfSome st x par).mem q).key = (st.mem q).key := by
  cases x <;> simp [setParentPtrIfSome]

@[simp] theorem key_node_transplant (st : State K) (src : Nat) (dest : Option Nat)
    (q : Nat) : ((node_transplant st src dest).mem q).key = (st.mem q).key := by
  unfold node_transplant
  cases (st.mem src).parent <;> cases dest <;> simp

theorem key_rotate_dir {st st' : State K} {P S : Nat} {dir : Bool}
    (h : rotate_dir st P dir = some (st', S)) (q : Nat) :
    (st'.mem q).key = (st.mem q).key := by
  unfold rotate_dir at h
  rcases hS : child st P (!dir) with _ | S0 <;> rw [hS] at h
  · exact absurd h (by simp)
  · simp only [Option.some.injEq, Prod.mk.injEq] at h
    obtain ⟨h1, _⟩ := h
    subst h1
    rcases hC : child st S0 dir with _ | c <;>
      rcases hG : (st.mem P).parent with _ | g <;> simp

theorem key_delete_case6 {st st' : State K} {P S D : Nat} {dir : Bool}
    (h : delete_case6 st P S D dir = some st') (q : Nat) :
    (st'.mem q).key = (st.mem q).key := by
  unfold delete_case6 at h
  rcases hR : rotate_dir st P dir with _ | ⟨st1, s1⟩ <;> rw [hR] at h
  · cases h
  · simp only [Option.some.injEq] at h
    subst h
    simp [key_rotate_dir hR]

theorem key_delete_case5 {st st' : State K} {P S C : Nat} {dir : Bool}
    (h : delete_case5 st P S C dir = some st') (q : Nat) :
    (st'.mem q).key = (st.mem q).key := by
  unfold delete_case5 at h
  rcases hR : rotate_dir st S (!dir) with _ | ⟨st1, s1⟩ <;> rw [hR] at h
  · cases h
  · rw [key_delete_case6 h, key_setColorToBlack, key_setColorToRed,
      key_rotate_dir hR]

theorem key_delete_case4 (st : State K) (P S q : Nat) :
    ((delete_case4 st P S).mem q).key = (st.mem q).key := by
  simp [delete_case4]

theorem key_delete_case3 {st st' : State K} {P S : Nat} {C : Option Nat} {dir : Bool}
    (h : delete_case3 st P S C dir = some st') (q : Nat) :
    (st'.mem q).key = (st.mem q).key := by
  unfold delete_case3 at h
  rcases hR : rotate_dir st P dir with _ | ⟨st1, s1⟩ <;> rw [hR] at h
  · cases h
  · rcases C with _ | S2
    · cases h
    · simp only at h
      have base : ∀ r, ((setColorToBlack (setColorToRed st1 P) S).mem r).key
          = (st.mem r).key := by
        intro r
        rw [key_setColorToBlack, key_setColorToRed, key_rotate_dir hR]
      split at h
      · split at h
        · cases h
        · rw [key_delete_case6 h, base]
      · split at h
        · split at h
          · cases h
          · rw [key_delete_case5 h, base]
        · simp only [Option.some.injEq] at h
          subst h
          rw [key_delete_case4, base]

theorem key_delete_fixup_go :
    ∀ (fuel : Nat) {st st' : State K} {P : Nat} {dir : Bool},
      delete_fixup_go st P dir fuel = some st' →
      ∀ q, (st'.mem q).key = (st.mem q).key := by
  intro fuel
  induction fuel using Nat.strong_induction_on with
  | _ fuel ih =>
    intro st st' P dir h q
    rw [delete_fixup_go] at h
    split at h
    · cases h
    · simp only [] at h
      split at h
      · exact key_delete_case3 h q
      · split at h
        · split at h
          · cases h
          · exact key_delete_case6 h q
        · split at h
          · split at h
            · cases h
            · exact key_delete_case5 h q
          · split at h
            · simp only [Option.some.injEq] at h
              subst h
              rw [key_delete_case4]
            · split at h
              · simp only [Option.some.injEq] at h
                subst h
                rw [key_setColorToRed]
              · split at h
                · cases h
                · next fuel2 =>
                  rw [ih fuel2 (by omega) h, key_setColorToRed]

theorem key_delete_node_main {st st' : State K} {p : Nat} {fuel : Nat}
    (h : delete_node_main st p fuel = some st') (q : Nat) :
    (st'.mem q).key = (st.mem q).key := by
  unfold delete_node_main at h
  split at h
  · split at h
    · simp only [Option.some.injEq] at h
      subst h
      rw [key_node_transplant]
    · split at h
      · cases h
      · simp only [] at h
        rw [key_delete_fixup_go _ h, key_node_transplant]
  · simp only [] at h
    split at h
    · cases h
    · simp only [Option.some.injEq] at h
      subst h
      rw [key_node_transplant, key_setColorToBlack]
  · simp only [] at h
    split at h
    · cases h
    · simp only [Option.some.injEq] at h
      subst h
      rw [key_node_transplant, key_setColorToBlack]
  · rw [Option.bind_eq_some] at h
    obtain ⟨succ, hsucc, h⟩ := h
    split at h
    · cases h
    · simp only [] at h
      rw [Option.bind_eq_some] at h
      obtain ⟨st3, hst3, h⟩ := h
      have hkey3 : ∀ r, (st3.mem r).key = (st.mem r).key := by
        intro r
        split at hst3
        · split at hst3
          · cases hst3
          · simp only [Option.some.injEq] at hst3
            subst hst3
            rw [key_setParentPtr, mem_write]
            by_cases hr : r = succ <;> simp [hr, key_node_transplant]
        · simp only [Option.some.injEq] at hst3
          subst hst3
          rfl
      rw [Option.bind_eq_some] at h
      obtain ⟨st6, hst6, h⟩ := h
      have hkey6 : ∀ r, (st6.mem r).key = (st.mem r).key := by
        intro r
        split at hst6
        · cases hst6
        · simp only [Option.some.injEq] at hst6
          subst hst6
          rw [key_setParentPtr, mem_write]
          by_cases hr : r = succ <;> simp [hr, key_node_transplant, hkey3]
      split at h
      · simp only [Option.some.injEq] at h
        subst h
        rw [key_setColorToBlack, key_setColorToColorOfOther, hkey6]
      · split at h
        · rw [key_delete_fixup_go _ h, key_setColorToColorOfOther, hkey6]
        · simp only [Option.some.injEq] at h
          subst h
          rw [key_setColorToColorOfOther, hkey6]

end BasicLemmas

/-! ## Concrete instances used by counterexamples and witnesses -/

/-- The usual strict order on `Int`, an instance of `KEY_IS_STRICTLY_LESS`. -/
def intLt : Int → Int → Bool := fun a b => decide (a < b)

/-- A heap with no tree and all node records zeroed. -/
def st0 : State Int :=
  { root := none, mem := fun _ => ⟨none, false, none, none, 0⟩ }

/-- A heap holding the one-node tree with BLACK root `0` keyed `5`. -/
def st5 : State Int :=
  { root := some 0,
    mem := fun q => if q = 0 then ⟨none, true, none, none, 5⟩
      else ⟨none, false, none, none, 0⟩ }

/-! ## Claim theorems: query equivalence, insert placement, delete frame -/

theorem contains_go_eq_search_go {K : Type} (lt : K → K → Bool) (st : State K)
    (key : K) : ∀ (fuel : Nat) (cur : Option Nat),
    contains_go lt st key fuel cur
      = (search_go lt st key fuel cur).map Option.isSome := by
  intro fuel
  induction fuel with
  | zero => intro cur; cases cur <;> rfl
  | succ f ih =>
    intro cur
    cases cur with
    | none => rfl
    | some p =>
      simp only [contains_go, search_go]
      split_ifs with h1 h2
      · rfl
      · exact ih _
      · exact ih _

/-- C8: `contains_key` answers `true` exactly when `search_node` returns a
non-`NULL` node pointer (given the same fuel; fuel exhaustion hits both walks
identically since they descend the same path). -/
theorem contains_key_iff_search_node {K : Type} (lt : K → K → Bool)
    (st : State K) (key : K) (fuel : Nat) :
    contains_key lt st key fuel = some true ↔
      ∃ p, search_node lt st key fuel = some (some p) := by
  unfold contains_key search_node
  rw [contains_go_eq_search_go]
  rcases search_go lt st key fuel st.root with _ | (_ | p) <;> simp

/-- C10: `delete_node` hands back exactly the node it was asked to delete:
the returned pointer is the argument pointer, the node's key field still holds
the key it had in the tree, and its `left`, `right` and parent links have been
reset to the empty state. -/
theorem delete_node_returns_same_node {K : Type} {st st' : State K}
    {p ret fuel : Nat} (h : delete_node st p fuel = some (st', ret)) :
    ret = p ∧ (st'.mem p).key = (st.mem p).key ∧ (st'.mem p).left = none ∧
      (st'.mem p).right = none ∧ (st'.mem p).parent = none := by
  unfold delete_node at h
  rw [Option.bind_eq_some] at h
  obtain ⟨stm, hm, hfin⟩ := h
  simp only [Option.some.injEq, Prod.mk.injEq] at hfin
  obtain ⟨hst, hret⟩ := hfin
  subst hst
  subst hret
  refine ⟨rfl, ?_, ?_, ?_, ?_⟩
  · rw [key_setParentPtr, mem_write]
    simp [key_delete_node_main hm]
  · simp [setParentPtr, State.write]
  · simp [setParentPtr, State.write]
  · simp [setParentPtr, State.write]

/-- C10 witness: deleting the sole node of a one-node tree returns node `0`
with key `5` and cleared links. -/
theorem delete_node_returns_same_node_witness :
    ∃ st' ret, delete_node st5 0 1 = some (st', ret) ∧
      (ret = 0 ∧ (st'.mem 0).key = (st5.mem 0).key ∧ (st'.mem 0).left = none ∧
        (st'.mem 0).right = none ∧ (st'.mem 0).parent = none) := by
  have hSome : (delete_node st5 0 1).isSome = true := by decide
  rcases hE : delete_node st5 0 1 with _ | ⟨st', ret⟩
  · rw [hE] at hSome; cases hSome
  · exact ⟨st', ret, rfl, delete_node_returns_same_node hE⟩

/-- C2 (counterexample): inserting node `0` (key `10`) into the freshly
initialized empty tree makes it the root but colored RED (`black = false`),
not BLACK as the claim states. -/
theorem insert_into_empty_root_red_cex :
    (insert_node intLt (node_init st0 0 10) 0 1).map
      (fun st => (st.root, (st.mem 0).black)) = some (some 0, false) := by
  rfl

/-- C2 (amended): when `insert_node` is called on an empty tree, the inserted
node becomes the root with cleared links — but it is colored RED, not BLACK
(the code never recolors a freshly inserted root). -/
theorem insert_node_into_empty_tree {K : Type} (lt : K → K → Bool)
    (st : State K) (p fuel : Nat) (h : st.root = none) :
    ∃ st', insert_node lt st p fuel = some st' ∧ st'.root = some p ∧
      st'.mem p = ⟨none, false, none, none, (st.mem p).key⟩ ∧
      ∀ q, q ≠ p → st'.mem q = st.mem q := by
  unfold insert_node
  have hdesc : insert_descend lt st (st.mem p).key fuel none st.root
      = some none := by
    rw [h]; cases fuel <;> rfl
  rw [hdesc]
  refine ⟨_, rfl, rfl, ?_, ?_⟩
  · simp [setColorToRed, setParentPtr, State.write]
  · intro q hq
    simp [setColorToRed, setParentPtr, State.write, hq]

/-- Witness for the amended C2 at a concrete input. -/
theorem insert_node_into_empty_tree_witness :
    ∃ st', insert_node intLt st0 0 0 = some st' ∧ st'.root = some 0 ∧
      st'.mem 0 = ⟨none, false, none, none, (st0.mem 0).key⟩ ∧
      ∀ q, q ≠ 0 → st'.mem q = st0.mem q :=
  insert_node_into_empty_tree intLt st0 0 0 rfl

/-- C3 (counterexample): in duplicate-key mode, inserting a second node with
key `5` into the one-node tree keyed `5` places it as the LEFT child of the
equal-keyed root, not the right child. -/
theorem insert_equal_key_left_cex :
    (insert_node intLt (node_init st5 1 5) 1 2).map
      (fun st => ((st.mem 0).left, (st.mem 0).right)) = some (some 1, none) := by
  rfl

/-- C3 (amended): `insert_node` descends to the LEFT at every node whose key
compares equal to the inserted key (the descent tests only
`KEY_IS_STRICTLY_LESS(current, new)`), and a node whose parent-candidate key
compares equal is linked as the LEFT child. -/
theorem insert_equal_key_left {K : Type} (lt : K → K → Bool) :
    (∀ (st : State K) (k : K) (fuel : Nat) (par : Option Nat) (cur : Nat),
        lt (st.mem cur).key k = false →
        insert_descend lt st k (fuel + 1) par (some cur)
          = insert_descend lt st k fuel (some cur) (st.mem cur).left) ∧
    (∀ (st : State K) (p r fuel : Nat),
        st.root = some r → (st.mem r).left = none → (st.mem r).right = none →
        (st.mem r).parent = none → p ≠ r →
        lt (st.mem r).key (st.mem p).key = false →
        (insert_node lt st p (fuel + 1)).map
            (fun st' => ((st'.mem r).left, (st'.mem r).right,
              (st'.mem p).parent))
          = some (some p, none, some r)) := by
  constructor
  · intro st k fuel par cur hlt
    simp [insert_descend, hlt]
  · intro st p r fuel hroot hleft hright hpar hne hlt
    have hrp : ¬ r = p := fun hh => hne hh.symm
    unfold insert_node
    rw [hroot]
    have h1 : insert_descend lt st (st.mem p).key (fuel + 1) none (some r)
        = some (some r) := by
      simp [insert_descend, hlt, hleft]
    rw [h1]
    simp only [Option.some_bind]
    by_cases hblack : (st.mem r).black <;>
      simp [insert_fixup, insert_fixup_go, setColorToRed, setColorToBlack,
        setParentPtr, setChild, State.write, hrp, hne, hlt, hleft, hright,
        hpar, hblack]

/-- Witness for the amended C3 at concrete inputs. -/
theorem insert_equal_key_left_witness :
    (insert_descend intLt st5 5 1 none (some 0)
      = insert_descend intLt st5 5 0 (some 0) ((st5.mem 0).left)) ∧
    ((insert_node intLt st5 1 1).map
        (fun st' => ((st'.mem 0).left, (st'.mem 0).right, (st'.mem 1).parent))
      = some (some 1, none, some 0)) :=
  ⟨(insert_equal_key_left intLt).1 st5 5 0 none 0 rfl,
   (insert_equal_key_left intLt).2 st5 1 0 0 rfl rfl rfl rfl (by decide) rfl⟩

/-- C9: starting from an initialized empty tree, inserting nodes keyed
10, 20, 30 in order yields root keyed 20 colored BLACK whose left and right
children are the RED nodes keyed 10 and 30. -/
theorem insert_10_20_30_shape :
    ((insert_node intLt (node_init (init st0) 0 10) 0 20).bind fun st =>
      (insert_node intLt (node_init st 1 20) 1 20).bind fun st =>
      insert_node intLt (node_init st 2 30) 2 20).map
      (fun st => (st.root,
        (st.mem 1).key, (st.mem 1).black, (st.mem 1).left, (st.mem 1).right,
        (st.mem 0).key, (st.mem 0).black, (st.mem 2).key, (st.mem 2).black))
    = some (some 1, 20, true, some 0, some 2, 10, false, 30, false) := by
  rfl

/-- C1 (counterexample): the completed `insert_node` of one node into the
freshly initialized empty tree leaves the root RED, so invariant 2
(root-is-black) does not hold after every operation. -/
theorem root_black_invariant_cex :
    (insert_node intLt (node_init (init st0) 0 10) 0 1).map
      (fun st => st.root.map (fun r => (st.mem r).black)) = some (some false) := by
  rfl

/-! ## Functional view of the pointer structure

`ITree` is the inductive binary tree a well-formed heap realizes: each
functional node records the heap id it lives at, its color, and its key.
`Ctx` is a path ("zipper") from the root of such a tree down to a hole;
the bottom-up fixup loops of the C code walk such paths.  `IsTree` and
`IsCtx` say that a heap fragment realizes a functional tree / context,
including mutual parent/child pointer consistency. -/

inductive ITree (K : Type) where
  | nil : ITree K
  | node (id : Nat) (black : Bool) (l : ITree K) (key : K) (r : ITree K) : ITree K
deriving Repr, DecidableEq

namespace ITree

/-- The heap pointer to the root of a functional subtree. -/
def rootPtr {K : Type} : ITree K → Option Nat
  | .nil => none
  | .node i _ _ _ _ => some i

/-- All heap ids in a functional tree (preorder). -/
def idsT {K : Type} : ITree K → List Nat
  | .nil => []
  | .node i _ l _ r => i :: (idsT l ++ idsT r)

/-- In-order key sequence. -/
def keysT {K : Type} : ITree K → List K
  | .nil => []
  | .node _ _ l k r => keysT l ++ k :: keysT r

/-- Number of nodes. -/
def sizeT {K : Type} : ITree K → Nat
  | .nil => 0
  | .node _ _ l _ r => sizeT l + sizeT r + 1

/-- Height: number of nodes on the longest root-to-leaf path. -/
def heightT {K : Type} : ITree K → Nat
  | .nil => 0
  | .node _ _ l _ r => max (heightT l) (heightT r) + 1

/-- Whether the root of a subtree is a RED node. -/
def rootRed {K : Type} : ITree K → Bool
  | .nil => false
  | .node _ c _ _ _ => !c

/-- Invariant 3 (no red-red), as a decidable predicate. -/
def nrrB {K : Type} : ITree K → Bool
  | .nil => true
  | .node _ c l _ r =>
    (c || (!rootRed l && !rootRed r)) && nrrB l && nrrB r

/-- Invariant 4 (black-height): `some b` if every path from the root to an
absent-reference position passes through exactly `b` BLACK nodes, `none` if
the tree is inconsistent. -/
def bhT {K : Type} : ITree K → Option Nat
  | .nil => some 0
  | .node _ c l _ r =>
    (bhT l).bind fun bl => (bhT r).bind fun br =>
      if bl = br then some (bl + (if c then 1 else 0)) else none

end ITree

open ITree

/-- A path context: `frame up i c dir k sib` has its hole at the `dir` child
(`false` = left) of the node at heap id `i` (color `c`, key `k`), whose other
child is the subtree `sib`; `up` is the context of that node. -/
inductive Ctx (K : Type) where
  | top : Ctx K
  | frame (up : Ctx K) (id : Nat) (black : Bool) (dir : Bool) (key : K)
      (sib : ITree K) : Ctx K
deriving Repr, DecidableEq

namespace Ctx

/-- Plug a subtree into the hole of a context. -/
def fill {K : Type} : Ctx K → ITree K → ITree K
  | .top, t => t
  | .frame up i c dir k sib, t =>
    fill up (if dir then .node i c sib k t else .node i c t k sib)

/-- The pointer to the parent of the hole (the innermost frame's node). -/
def ctxPar {K : Type} : Ctx K → Option Nat
  | .top => none
  | .frame _ i _ _ _ _ => some i

/-- All heap ids mentioned by a context (frame nodes and their siblings). -/
def ctxIds {K : Type} : Ctx K → List Nat
  | .top => []
  | .frame up i _ _ _ sib => i :: (idsT sib ++ ctxIds up)

end Ctx

open Ctx

/-- The heap fragment rooted at `rootPtr t` realizes the functional tree `t`,
all parent pointers in it pointing as recorded (the root's to `par`). -/
def IsTree {K : Type} (st : State K) : Option Nat → ITree K → Prop
  | _, .nil => True
  | par, .node i c l k r =>
    (st.mem i).parent = par ∧ (st.mem i).black = c ∧
    (st.mem i).left = rootPtr l ∧ (st.mem i).right = rootPtr r ∧
    (st.mem i).key = k ∧ IsTree st (some i) l ∧ IsTree st (some i) r

def decIsTree {K : Type} [DecidableEq K] (st : State K) :
    ∀ (par : Option Nat) (t : ITree K), Decidable (IsTree st par t)
  | _, .nil => isTrue trivial
  | par, .node i c l k r => by
    haveI := decIsTree st (some i) l
    haveI := decIsTree st (some i) r
    simp only [IsTree]
    infer_instance

attribute [instance] decIsTree

/-- The heap realizes the context `ctx`, whose hole slot currently holds the
pointer `hole`. -/
def IsCtx {K : Type} (st : State K) : Ctx K → Option Nat → Prop
  | .top, hole => st.root = hole
  | .frame up i c dir k sib, hole =>
    IsCtx st up (some i) ∧ (st.mem i).black = c ∧ (st.mem i).key = k ∧
    (if dir then (st.mem i).right else (st.mem i).left) = hole ∧
    (if dir then (st.mem i).left else (st.mem i).right) = rootPtr sib ∧
    (st.mem i).parent = ctxPar up ∧ IsTree st (some i) sib

def decIsCtx {K : Type} [DecidableEq K] (st : State K) :
    ∀ (ctx : Ctx K) (hole : Option Nat), Decidable (IsCtx st ctx hole)
  | .top, hole => by
    simp only [IsCtx]
    infer_instance
  | .frame up i c dir k sib, hole => by
    haveI := decIsCtx st up (some i)
    simp only [IsCtx]
    infer_instance

attribute [instance] decIsCtx

/-- The whole heap realizes the functional tree `t`. -/
def Realizes {K : Type} (st : State K) (t : ITree K) : Prop :=
  st.root = rootPtr t ∧ IsTree st none t ∧ (idsT t).Nodup

/-! ### Frame lemmas: realization only looks at the mentioned cells -/

theorem IsTree_congr {K : Type} {st st' : State K} :
    ∀ {t : ITree K} {par : Option Nat},
      (∀ j, j ∈ idsT t → st'.mem j = st.mem j) →
      IsTree st par t → IsTree st' par t := by
  intro t
  induction t with
  | nil => intro par _ _; trivial
  | node i c l k r ihl ihr =>
    intro par hmem h
    obtain ⟨h1, h2, h3, h4, h5, hl, hr⟩ := h
    have hi : st'.mem i = st.mem i := hmem i (by simp [idsT])
    refine ⟨by rw [hi]; exact h1, by rw [hi]; exact h2, by rw [hi]; exact h3,
      by rw [hi]; exact h4, by rw [hi]; exact h5, ?_, ?_⟩
    · exact ihl (fun j hj => hmem j (by simp [idsT, hj])) hl
    · exact ihr (fun j hj => hmem j (by simp [idsT, hj])) hr

theorem IsTree_root_irrel {K : Type} {st : State K} {r : Option Nat}
    {par : Option Nat} {t : ITree K} (h : IsTree st par t) :
    IsTree (State.mk r st.mem) par t :=
  @IsTree_congr K st (State.mk r st.mem) t par (fun _ _ => rfl) h

theorem IsCtx_congr {K : Type} {st st' : State K} :
    ∀ {ctx : Ctx K} {hole : Option Nat},
      st'.root = st.root →
      (∀ j, j ∈ ctxIds ctx → st'.mem j = st.mem j) →
      IsCtx st ctx hole → IsCtx st' ctx hole := by
  intro ctx
  induction ctx with
  | top => intro hole hroot _ h; exact hroot.trans h
  | frame up i c dir k sib ih =>
    intro hole hroot hmem h
    obtain ⟨hup, h2, h3, h4, h5, h6, hsib⟩ := h
    have hi : st'.mem i = st.mem i := hmem i (by simp [ctxIds])
    refine ⟨ih hroot (fun j hj => hmem j (by simp [ctxIds, hj])) hup,
      by rw [hi]; exact h2, by rw [hi]; exact h3, by rw [hi]; exact h4,
      by rw [hi]; exact h5, by rw [hi]; exact h6,
      IsTree_congr (fun j hj => hmem j (by simp [ctxIds, hj])) hsib⟩

/-! ### Composing a context with a subtree -/

theorem idsT_fill {K : Type} :
    ∀ (ctx : Ctx K) (t : ITree K),
      (idsT (fill ctx t) : Multiset Nat) = (ctxIds ctx : Multiset Nat) + idsT t := by
  intro ctx
  induction ctx with
  | top => intro t; simp [fill, ctxIds]
  | frame up i c dir k sib ih =>
    intro t
    cases dir <;>
      simp only [fill, ih, ctxIds, idsT, ← Multiset.cons_coe, ← Multiset.coe_add,
        ← Multiset.singleton_add] <;>
      abel

theorem IsTree_fill {K : Type} {st : State K} :
    ∀ {ctx : Ctx K} {t : ITree K},
      IsCtx st ctx (rootPtr t) → IsTree st (ctxPar ctx) t →
      st.root = rootPtr (fill ctx t) ∧ IsTree st none (fill ctx t) := by
  intro ctx
  induction ctx with
  | top => intro t hctx ht; exact ⟨hctx, ht⟩
  | frame up i c dir k sib ih =>
    intro t hctx ht
    obtain ⟨hup, h2, h3, h4, h5, h6, hsib⟩ := hctx
    cases dir
    · simp only [fill]
      refine ih ?_ ?_
      · exact hup
      · exact ⟨h6, h2, by simpa using h4, by simpa using h5, h3, ht, hsib⟩
    · simp only [fill]
      refine ih ?_ ?_
      · exact hup
      · exact ⟨h6, h2, by simpa using h5, by simpa using h4, h3, hsib, ht⟩

/-! ### Pointwise characterization of the primitive writes -/

theorem mem_setChild {K : Type} (st : State K) (p : Nat) (dir : Bool)
    (c : Option Nat) (q : Nat) :
    (setChild st p dir c).mem q
      = if q = p then
          (if dir then { st.mem p with right := c } else { st.mem p with left := c })
        else st.mem q := by
  cases dir <;> rfl

theorem mem_setParentPtr {K : Type} (st : State K) (p : Nat) (par : Option Nat)
    (q : Nat) :
    (setParentPtr st p par).mem q
      = if q = p then { st.mem p with parent := par } else st.mem q := rfl

theorem mem_setColorToRed {K : Type} (st : State K) (p q : Nat) :
    (setColorToRed st p).mem q
      = if q = p then { st.mem p with black := false } else st.mem q := rfl

theorem mem_setColorToBlack {K : Type} (st : State K) (p q : Nat) :
    (setColorToBlack st p).mem q
      = if q = p then { st.mem p with black := true } else st.mem q := rfl

theorem mem_setColorToColorOfOther {K : Type} (st : State K) (p o q : Nat) :
    (setColorToColorOfOther st p o).mem q
      = if q = p then { st.mem p with black := (st.mem o).black } else st.mem q := rfl

theorem root_setChild {K : Type} (st : State K) (p : Nat) (dir : Bool)
    (c : Option Nat) : (setChild st p dir c).root = st.root := by
  cases dir <;> rfl

theorem root_setParentPtr {K : Type} (st : State K) (p : Nat) (par : Option Nat) :
    (setParentPtr st p par).root = st.root := rfl

theorem mem_setParentPtrIfSome {K : Type} (st : State K) (x par : Option Nat)
    (q : Nat) :
    (setParentPtrIfSome st x par).mem q
      = if x = some q then { st.mem q with parent := par } else st.mem q := by
  cases x with
  | none => simp [setParentPtrIfSome]
  | some p =>
    by_cases h : q = p <;>
      simp [setParentPtrIfSome, mem_setParentPtr, h, eq_comm]

theorem root_setParentPtrIfSome {K : Type} (st : State K) (x par : Option Nat) :
    (setParentPtrIfSome st x par).root = st.root := by
  cases x <;> rfl

theorem root_setColorToRed {K : Type} (st : State K) (p : Nat) :
    (setColorToRed st p).root = st.root := rfl

theorem root_setColorToBlack {K : Type} (st : State K) (p : Nat) :
    (setColorToBlack st p).root = st.root := rfl

theorem root_setColorToColorOfOther {K : Type} (st : State K) (p o : Nat) :
    (setColorToColorOfOther st p o).root = st.root := rfl

/-- Re-rooting a realized subtree under a new parent: the root cell's parent
field is the new parent, everything else about the subtree's cells unchanged. -/
theorem IsTree_reparent {K : Type} {st st' : State K} :
    ∀ {t : ITree K} {par par' : Option Nat},
      (idsT t).Nodup →
      (∀ j, j ∈ idsT t → some j ≠ rootPtr t → st'.mem j = st.mem j) →
      (∀ i, rootPtr t = some i →
        (st'.mem i).parent = par' ∧ (st'.mem i).black = (st.mem i).black ∧
        (st'.mem i).left = (st.mem i).left ∧ (st'.mem i).right = (st.mem i).right ∧
        (st'.mem i).key = (st.mem i).key) →
      IsTree st par t → IsTree st' par' t := by
  intro t
  cases t with
  | nil => intro par par' _ _ _ _; trivial
  | node i c l k r =>
    intro par par' hnd hmem hroot h
    obtain ⟨h1, h2, h3, h4, h5, hl, hr⟩ := h
    obtain ⟨g1, g2, g3, g4, g5⟩ := hroot i rfl
    simp only [idsT, List.nodup_cons, List.mem_append] at hnd
    refine ⟨g1, by rw [g2]; exact h2, by rw [g3]; exact h3,
      by rw [g4]; exact h4, by rw [g5]; exact h5, ?_, ?_⟩
    · refine IsTree_congr (fun j hj => ?_) hl
      refine hmem j (by simp [idsT, hj]) ?_
      intro hji
      simp only [rootPtr, Option.some.injEq] at hji
      exact hnd.1 (Or.inl (hji ▸ hj))
    · refine IsTree_congr (fun j hj => ?_) hr
      refine hmem j (by simp [idsT, hj]) ?_
      intro hji
      simp only [rootPtr, Option.some.injEq] at hji
      exact hnd.1 (Or.inr (hji ▸ hj))

/-! ### The functional effect of a rotation -/

/-- The subtree shape `rotate_dir` expects around pivot `P`: the child `S`
opposite the rotation direction is present. -/
def preRot {K : Type} (dir : Bool) (P : Nat) (cp : Bool) (kp : K) (S : Nat)
    (cs : Bool) (ks : K) (a b c : ITree K) : ITree K :=
  if dir then .node P cp (.node S cs a ks b) kp c
  else .node P cp a kp (.node S cs b ks c)

/-- The subtree shape after `rotate_dir`: `S` has taken `P`'s position. -/
def postRot {K : Type} (dir : Bool) (P : Nat) (cp : Bool) (kp : K) (S : Nat)
    (cs : Bool) (ks : K) (a b c : ITree K) : ITree K :=
  if dir then .node S cs a ks (.node P cp b kp c)
  else .node S cs (.node P cp a kp b) ks c

theorem keysT_postRot {K : Type} (dir : Bool) (P : Nat) (cp : Bool) (kp : K)
    (S : Nat) (cs : Bool) (ks : K) (a b c : ITree K) :
    keysT (postRot dir P cp kp S cs ks a b c)
      = keysT (preRot dir P cp kp S cs ks a b c) := by
  cases dir <;> simp [preRot, postRot, keysT]

theorem idsT_postRot {K : Type} (dir : Bool) (P : Nat) (cp : Bool) (kp : K)
    (S : Nat) (cs : Bool) (ks : K) (a b c : ITree K) :
    (idsT (postRot dir P cp kp S cs ks a b c) : Multiset Nat)
      = (idsT (preRot dir P cp kp S cs ks a b c) : Multiset Nat) := by
  cases dir <;>
    simp only [preRot, postRot, idsT, if_true, if_false, Bool.false_eq_true,
      ← Multiset.cons_coe, ← Multiset.coe_add, ← Multiset.singleton_add] <;>
    abel

theorem rootPtr_mem {K : Type} : ∀ {t : ITree K} {i : Nat},
    rootPtr t = some i → i ∈ idsT t := by
  intro t i h
  cases t with
  | nil => cases h
  | node j c l k r =>
    simp only [rootPtr, Option.some.injEq] at h
    simp [idsT, h]

@[simp] theorem black_setChild {K : Type} (st : State K) (p q : Nat) (dir : Bool)
    (c : Option Nat) :
    ((setChild st p dir c).mem q).black = (st.mem q).black := by
  cases dir <;> by_cases h : q = p <;> simp [setChild, State.write, h]

@[simp] theorem black_setParentPtr {K : Type} (st : State K) (p q : Nat)
    (par : Option Nat) :
    ((setParentPtr st p par).mem q).black = (st.mem q).black := by
  by_cases h : q = p <;> simp [setParentPtr, State.write, h]

@[simp] theorem black_setParentPtrIfSome {K : Type} (st : State K)
    (x par : Option Nat) (q : Nat) :
    ((setParentPtrIfSome st x par).mem q).black = (st.mem q).black := by
  cases x <;> simp [setParentPtrIfSome]

theorem black_rotate_dir {K : Type} {st st' : State K} {P S : Nat} {dir : Bool}
    (h : rotate_dir st P dir = some (st', S)) (q : Nat) :
    (st'.mem q).black = (st.mem q).black := by
  unfold rotate_dir at h
  rcases hS : child st P (!dir) with _ | S0 <;> rw [hS] at h
  · cases h
  · simp only [Option.some.injEq, Prod.mk.injEq] at h
    obtain ⟨h1, _⟩ := h
    subst h1
    rcases hC : child st S0 dir with _ | c <;>
      rcases hG : (st.mem P).parent with _ | g <;> simp

/-- The write chain of `rotate_dir` before the grandparent/root adjustment,
with the final parent value `gp` (read from `P` before any write). -/
def rotChain {K : Type} (st : State K) (P S : Nat) (dir : Bool)
    (gp : Option Nat) : State K :=
  setParentPtr (setParentPtr (setChild (setParentPtrIfSome
    (setChild st P (!dir) (child st S dir)) (child st S dir) (some P))
    S dir (some P)) P (some S)) S gp

/-- Executing `rotate_dir` on a pivot with no parent: the root is updated. -/
theorem rotate_dir_eq_root {K : Type} (st : State K) (P S : Nat) (dir : Bool)
    (hS : child st P (!dir) = some S) (hG : (st.mem P).parent = none) :
    rotate_dir st P dir
      = some ({ rotChain st P S dir none with root := some S }, S) := by
  unfold rotate_dir
  rw [hS]
  simp only [hG, rotChain]

/-- Executing `rotate_dir` on a pivot with a parent `g`: `g`'s child slot that
held `P` is redirected to `S`. -/
theorem rotate_dir_eq_frame {K : Type} (st : State K) (P S g : Nat) (dir : Bool)
    (hS : child st P (!dir) = some S) (hG : (st.mem P).parent = some g) :
    rotate_dir st P dir
      = some (setChild (rotChain st P S dir (some g)) g
          (if ((rotChain st P S dir (some g)).mem g).left = some P then false
           else true) (some S), S) := by
  unfold rotate_dir
  rw [hS]
  simp only [hG, rotChain]

theorem rotate_dir_sim {K : Type} {st : State K} {ctx : Ctx K} (dir : Bool)
    {P S : Nat} {cp cs : Bool} {kp ks : K} {a b c : ITree K}
    (hctx : IsCtx st ctx (some P))
    (ht : IsTree st (ctxPar ctx) (preRot dir P cp kp S cs ks a b c))
    (hnd : (ctxIds ctx ++ idsT (preRot dir P cp kp S cs ks a b c)).Nodup) :
    ∃ st', rotate_dir st P dir = some (st', S) ∧
      IsCtx st' ctx (some S) ∧
      IsTree st' (ctxPar ctx) (postRot dir P cp kp S cs ks a b c) ∧
      (∀ q, (st'.mem q).black = (st.mem q).black) ∧
      (∀ q, (st'.mem q).key = (st.mem q).key) := by
  have hdisj := List.disjoint_of_nodup_append hnd
  have hndC := hnd.of_append_left
  have hndT := hnd.of_append_right
  cases dir
  case false =>
    simp only [preRot, postRot, Bool.false_eq_true, if_false] at ht hndT hdisj ⊢
    obtain ⟨hPpar, hPblack, hPl, hPr, hPk, hat, hSub⟩ := ht
    obtain ⟨hSpar, hSblack, hSl, hSr, hSk, hbt, hct⟩ := hSub
    simp only [rootPtr] at hPr
    rw [show idsT (ITree.node P cp a kp (ITree.node S cs b ks c))
        = P :: (idsT a ++ (S :: (idsT b ++ idsT c))) from rfl] at hndT hdisj
    obtain ⟨hPnot, hnd2⟩ := List.nodup_cons.mp hndT
    have hdar := List.disjoint_of_nodup_append hnd2
    have hnda : (idsT a).Nodup := hnd2.of_append_left
    have hnd3 := hnd2.of_append_right
    obtain ⟨hSnot, hnd4⟩ := List.nodup_cons.mp hnd3
    have hdbc := List.disjoint_of_nodup_append hnd4
    have hndb : (idsT b).Nodup := hnd4.of_append_left
    have hndc : (idsT c).Nodup := hnd4.of_append_right
    have hPS : P ≠ S := fun h => hPnot (by simp [h])
    have hSP : S ≠ P := fun h => hPS h.symm
    have hPa : P ∉ idsT a := fun h => hPnot (by simp [h])
    have hPb : P ∉ idsT b := fun h => hPnot (by simp [h])
    have hPc : P ∉ idsT c := fun h => hPnot (by simp [h])
    have hSa : S ∉ idsT a := fun h => hdar h (by simp)
    have hSb : S ∉ idsT b := fun h => hSnot (by simp [h])
    have hSc : S ∉ idsT c := fun h => hSnot (by simp [h])
    have hrbP : rootPtr b ≠ some P := fun h => hPb (rootPtr_mem h)
    have hrbS : rootPtr b ≠ some S := fun h => hSb (rootPtr_mem h)
    have hchild : child st P (!false) = some S := by simp [child, hPr]
    have hCb : child st S false = rootPtr b := by
      simp [child, hSl]
    have huntouched : ∀ (gp : Option Nat) j, j ≠ P → j ≠ S →
        rootPtr b ≠ some j →
        ((rotChain st P S false gp).mem j) = st.mem j := by
      intro gp j hjP hjS hjb
      simp [rotChain, mem_setChild, mem_setParentPtr, mem_setParentPtrIfSome,
        hCb, hjP, hjS, hjb]
    have hmem_a : ∀ (gp : Option Nat) j, j ∈ idsT a →
        ((rotChain st P S false gp).mem j) = st.mem j := by
      intro gp j hj
      refine huntouched gp j (fun h => hPa (h ▸ hj)) (fun h => hSa (h ▸ hj)) ?_
      exact fun h => (hdar hj) (by simp [rootPtr_mem h])
    have hmem_c : ∀ (gp : Option Nat) j, j ∈ idsT c →
        ((rotChain st P S false gp).mem j) = st.mem j := by
      intro gp j hj
      refine huntouched gp j (fun h => hPc (h ▸ hj)) (fun h => hSc (h ▸ hj)) ?_
      exact fun h => (hdbc (rootPtr_mem h)) hj
    have hmem_b : ∀ (gp : Option Nat) j, j ∈ idsT b → some j ≠ rootPtr b →
        ((rotChain st P S false gp).mem j) = st.mem j := by
      intro gp j hj hjr
      refine huntouched gp j (fun h => hPb (h ▸ hj)) (fun h => hSb (h ▸ hj)) ?_
      exact fun h => hjr h.symm
    have hroot_b : ∀ (gp : Option Nat) i, rootPtr b = some i →
        ((rotChain st P S false gp).mem i)
          = { st.mem i with parent := some P } := by
      intro gp i hi
      have hiP : i ≠ P := fun h => hPb (h ▸ rootPtr_mem hi)
      have hiS : i ≠ S := fun h => hSb (h ▸ rootPtr_mem hi)
      simp [rotChain, mem_setChild, mem_setParentPtr, mem_setParentPtrIfSome,
        hiP, hiS, hCb, hi]
    have hmemS : ∀ (gp : Option Nat),
        (rotChain st P S false gp).mem S
          = { st.mem S with left := some P, parent := gp } := by
      intro gp
      simp [rotChain, mem_setChild, mem_setParentPtr, mem_setParentPtrIfSome,
        hCb, hSP, hrbS, fun h : some S = rootPtr b => hrbS h.symm]
    have hmemP : ∀ (gp : Option Nat),
        (rotChain st P S false gp).mem P
          = { st.mem P with right := rootPtr b, parent := some S } := by
      intro gp
      simp [rotChain, mem_setChild, mem_setParentPtr, mem_setParentPtrIfSome,
        hCb, hPS, hrbP, fun h : some P = rootPtr b => hrbP h.symm]
    have htree5 : ∀ (gp : Option Nat), gp = ctxPar ctx →
        IsTree (rotChain st P S false gp) (ctxPar ctx)
          (ITree.node S cs (ITree.node P cp a kp b) ks c) := by
      intro gp hgp
      refine ⟨?_, ?_, ?_, ?_, ?_, ⟨?_, ?_, ?_, ?_, ?_, ?_, ?_⟩, ?_⟩
      · rw [hmemS]; exact hgp
      · rw [hmemS]; exact hSblack
      · rw [hmemS]; rfl
      · rw [hmemS]; exact hSr
      · rw [hmemS]; exact hSk
      · rw [hmemP]
      · rw [hmemP]; exact hPblack
      · rw [hmemP]; exact hPl
      · rw [hmemP]
      · rw [hmemP]; exact hPk
      · exact IsTree_congr (hmem_a gp) hat
      · refine IsTree_reparent hndb (hmem_b gp) ?_ hbt
        intro i hi
        rw [hroot_b gp i hi]
        exact ⟨rfl, rfl, rfl, rfl, rfl⟩
      · exact IsTree_congr (hmem_c gp) hct
    cases ctx with
    | top =>
      have hG : (st.mem P).parent = none := hPpar
      refine ⟨_, rotate_dir_eq_root st P S false hchild hG, ?_, ?_,
        fun q => black_rotate_dir (rotate_dir_eq_root st P S false hchild hG) q,
        fun q => key_rotate_dir (rotate_dir_eq_root st P S false hchild hG) q⟩
      · exact rfl
      · exact IsTree_root_irrel (htree5 none rfl)
    | frame up g cg fdir kg sibg =>
      have hG : (st.mem P).parent = some g := hPpar
      obtain ⟨hup, hgB, hgK, hgHole, hgSib, hgPar, hsibT⟩ := hctx
      have hgtree : g ∉ P :: (idsT a ++ S :: (idsT b ++ idsT c)) :=
        fun h => hdisj (by simp [ctxIds]) h
      have hgP : g ≠ P := fun h => hgtree (by simp [h])
      have hgS : g ≠ S := fun h => hgtree (by simp [h])
      have hgrb : rootPtr b ≠ some g := fun h => hgtree (by simp [rootPtr_mem h])
      have hg5 : (rotChain st P S false (some g)).mem g = st.mem g :=
        huntouched (some g) g hgP hgS hgrb
      have hsibP : rootPtr sibg ≠ some P := by
        intro h
        have hP1 : P ∈ ctxIds (Ctx.frame up g cg fdir kg sibg) := by
          simp [ctxIds, rootPtr_mem h]
        exact hdisj hP1 (by simp)
      have hslot : (if ((rotChain st P S false (some g)).mem g).left = some P
          then false else true) = fdir := by
        rw [hg5]
        cases fdir
        · simp only [Bool.false_eq_true, if_false] at hgHole
          simp [hgHole]
        · simp only [if_true] at hgHole hgSib
          rw [hgSib, if_neg hsibP]
      have hndctx := hndC
      simp only [ctxIds, List.nodup_cons] at hndctx
      obtain ⟨hgnot2, hndrest⟩ := hndctx
      refine ⟨_, rotate_dir_eq_frame st P S g false hchild hG, ?_, ?_,
        fun q => black_rotate_dir (rotate_dir_eq_frame st P S g false hchild hG) q,
        fun q => key_rotate_dir (rotate_dir_eq_frame st P S g false hchild hG) q⟩
      · rw [hslot]
        refine ⟨?_, ?_, ?_, ?_, ?_, ?_, ?_⟩
        · refine IsCtx_congr ?_ ?_ hup
          · simp [rotChain, root_setChild, root_setParentPtr,
              root_setParentPtrIfSome]
          · intro j hj
            have hjg : j ≠ g := fun h => hgnot2 (by simp [← h, hj])
            have hjtree : j ∉ P :: (idsT a ++ S :: (idsT b ++ idsT c)) :=
              fun hh => hdisj (by simp [ctxIds, hj]) hh
            rw [mem_setChild, if_neg hjg]
            exact huntouched (some g) j (fun h => hjtree (by simp [h]))
              (fun h => hjtree (by simp [h]))
              (fun h => hjtree (by simp [rootPtr_mem h]))
        · cases fdir <;> simp [mem_setChild, hg5, hgB]
        · cases fdir <;> simp [mem_setChild, hg5, hgK]
        · cases fdir <;> simp [mem_setChild]
        · cases fdir <;> simp only [Bool.false_eq_true, if_false, if_true]
            at hgSib ⊢ <;> simp [mem_setChild, hg5, hgSib]
        · cases fdir <;> simp [mem_setChild, hg5, hgPar]
        · refine IsTree_congr ?_ hsibT
          intro j hj
          have hjg : j ≠ g := fun h => hgnot2 (by simp [← h, hj])
          rw [mem_setChild, if_neg hjg]
          have hjctx : j ∈ ctxIds (Ctx.frame up g cg fdir kg sibg) := by
            simp [ctxIds, hj]
          have hjtree : j ∉ P :: (idsT a ++ S :: (idsT b ++ idsT c)) :=
            fun hh => hdisj hjctx hh
          exact huntouched (some g) j (fun h => hjtree (by simp [h]))
            (fun h => hjtree (by simp [h]))
            (fun h => hjtree (by simp [rootPtr_mem h]))
      · refine IsTree_congr ?_ (htree5 (some g) rfl)
        intro j hj
        have hjpre : j ∈ P :: (idsT a ++ S :: (idsT b ++ idsT c)) := by
          simp only [idsT, List.mem_cons, List.mem_append] at hj ⊢
          tauto
        have hjg : j ≠ g := fun h => hgtree (h ▸ hjpre)
        rw [mem_setChild, if_neg hjg]
  case true =>
    simp only [preRot, postRot, if_true] at ht hndT hdisj ⊢
    obtain ⟨hPpar, hPblack, hPl, hPr, hPk, hSub, hct⟩ := ht
    obtain ⟨hSpar, hSblack, hSl, hSr, hSk, hat, hbt⟩ := hSub
    simp only [rootPtr] at hPl
    rw [show idsT (ITree.node P cp (ITree.node S cs a ks b) kp c)
        = P :: ((S :: (idsT a ++ idsT b)) ++ idsT c) from rfl] at hndT hdisj
    obtain ⟨hPnot, hnd2⟩ := List.nodup_cons.mp hndT
    have hdarc := List.disjoint_of_nodup_append hnd2
    have hndc : (idsT c).Nodup := hnd2.of_append_right
    have hndL := hnd2.of_append_left
    obtain ⟨hSnot, hnd4⟩ := List.nodup_cons.mp hndL
    have hdab := List.disjoint_of_nodup_append hnd4
    have hnda : (idsT a).Nodup := hnd4.of_append_left
    have hndb : (idsT b).Nodup := hnd4.of_append_right
    have hPS : P ≠ S := fun h => hPnot (by simp [h])
    have hSP : S ≠ P := fun h => hPS h.symm
    have hPa : P ∉ idsT a := fun h => hPnot (by simp [h])
    have hPb : P ∉ idsT b := fun h => hPnot (by simp [h])
    have hPc : P ∉ idsT c := fun h => hPnot (by simp [h])
    have hSa : S ∉ idsT a := fun h => hSnot (by simp [h])
    have hSb : S ∉ idsT b := fun h => hSnot (by simp [h])
    have hSc : S ∉ idsT c := fun h => hdarc (by simp) h
    have hrbP : rootPtr b ≠ some P := fun h => hPb (rootPtr_mem h)
    have hrbS : rootPtr b ≠ some S := fun h => hSb (rootPtr_mem h)
    have hchild : child st P (!true) = some S := by simp [child, hPl]
    have hCb : child st S true = rootPtr b := by
      simp [child, hSr]
    have huntouched : ∀ (gp : Option Nat) j, j ≠ P → j ≠ S →
        rootPtr b ≠ some j →
        ((rotChain st P S true gp).mem j) = st.mem j := by
      intro gp j hjP hjS hjb
      simp [rotChain, mem_setChild, mem_setParentPtr, mem_setParentPtrIfSome,
        hCb, hjP, hjS, hjb]
    have hmem_a : ∀ (gp : Option Nat) j, j ∈ idsT a →
        ((rotChain st P S true gp).mem j) = st.mem j := by
      intro gp j hj
      refine huntouched gp j (fun h => hPa (h ▸ hj)) (fun h => hSa (h ▸ hj)) ?_
      exact fun h => hdab hj (rootPtr_mem h)
    have hmem_c : ∀ (gp : Option Nat) j, j ∈ idsT c →
        ((rotChain st P S true gp).mem j) = st.mem j := by
      intro gp j hj
      refine huntouched gp j (fun h => hPc (h ▸ hj)) (fun h => hSc (h ▸ hj)) ?_
      exact fun h => hdarc (by simp [rootPtr_mem h]) hj
    have hmem_b : ∀ (gp : Option Nat) j, j ∈ idsT b → some j ≠ rootPtr b →
        ((rotChain st P S true gp).mem j) = st.mem j := by
      intro gp j hj hjr
      refine huntouched gp j (fun h => hPb (h ▸ hj)) (fun h => hSb (h ▸ hj)) ?_
      exact fun h => hjr h.symm
    have hroot_b : ∀ (gp : Option Nat) i, rootPtr b = some i →
        ((rotChain st P S true gp).mem i)
          = { st.mem i with parent := some P } := by
      intro gp i hi
      have hiP : i ≠ P := fun h => hPb (h ▸ rootPtr_mem hi)
      have hiS : i ≠ S := fun h => hSb (h ▸ rootPtr_mem hi)
      simp [rotChain, mem_setChild, mem_setParentPtr, mem_setParentPtrIfSome,
        hiP, hiS, hCb, hi]
    have hmemS : ∀ (gp : Option Nat),
        (rotChain st P S true gp).mem S
          = { st.mem S with right := some P, parent := gp } := by
      intro gp
      simp [rotChain, mem_setChild, mem_setParentPtr, mem_setParentPtrIfSome,
        hCb, hSP, hrbS, fun h : some S = rootPtr b => hrbS h.symm]
    have hmemP : ∀ (gp : Option Nat),
        (rotChain st P S true gp).mem P
          = { st.mem P with left := rootPtr b, parent := some S } := by
      intro gp
      simp [rotChain, mem_setChild, mem_setParentPtr, mem_setParentPtrIfSome,
        hCb, hPS, hrbP, fun h : some P = rootPtr b => hrbP h.symm]
    have htree5 : ∀ (gp : Option Nat), gp = ctxPar ctx →
        IsTree (rotChain st P S true gp) (ctxPar ctx)
          (ITree.node S cs a ks (ITree.node P cp b kp c)) := by
      intro gp hgp
      refine ⟨?_, ?_, ?_, ?_, ?_, ?_, ⟨?_, ?_, ?_, ?_, ?_, ?_, ?_⟩⟩
      · rw [hmemS]; exact hgp
      · rw [hmemS]; exact hSblack
      · rw [hmemS]; exact hSl
      · rw [hmemS]; rfl
      · rw [hmemS]; exact hSk
      · exact IsTree_congr (hmem_a gp) hat
      · rw [hmemP]
      · rw [hmemP]; exact hPblack
      · rw [hmemP]
      · rw [hmemP]; exact hPr
      · rw [hmemP]; exact hPk
      · refine IsTree_reparent hndb (hmem_b gp) ?_ hbt
        intro i hi
        rw [hroot_b gp i hi]
        exact ⟨rfl, rfl, rfl, rfl, rfl⟩
      · exact IsTree_congr (hmem_c gp) hct
    cases ctx with
    | top =>
      have hG : (st.mem P).parent = none := hPpar
      refine ⟨_, rotate_dir_eq_root st P S true hchild hG, ?_, ?_,
        fun q => black_rotate_dir (rotate_dir_eq_root st P S true hchild hG) q,
        fun q => key_rotate_dir (rotate_dir_eq_root st P S true hchild hG) q⟩
      · exact rfl
      · exact IsTree_root_irrel (htree5 none rfl)
    | frame up g cg fdir kg sibg =>
      have hG : (st.mem P).parent = some g := hPpar
      obtain ⟨hup, hgB, hgK, hgHole, hgSib, hgPar, hsibT⟩ := hctx
      have hgtree : g ∉ P :: ((S :: (idsT a ++ idsT b)) ++ idsT c) :=
        fun h => hdisj (by simp [ctxIds]) h
      have hgP : g ≠ P := fun h => hgtree (by simp [h])
      have hgS : g ≠ S := fun h => hgtree (by simp [h])
      have hgrb : rootPtr b ≠ some g := fun h => hgtree (by simp [rootPtr_mem h])
      have hg5 : (rotChain st P S true (some g)).mem g = st.mem g :=
        huntouched (some g) g hgP hgS hgrb
      have hsibP : rootPtr sibg ≠ some P := by
        intro h
        have hP1 : P ∈ ctxIds (Ctx.frame up g cg fdir kg sibg) := by
          simp [ctxIds, rootPtr_mem h]
        exact hdisj hP1 (by simp)
      have hslot : (if ((rotChain st P S true (some g)).mem g).left = some P
          then false else true) = fdir := by
        rw [hg5]
        cases fdir
        · simp only [Bool.false_eq_true, if_false] at hgHole
          simp [hgHole]
        · simp only [if_true] at hgHole hgSib
          rw [hgSib, if_neg hsibP]
      have hndctx := hndC
      simp only [ctxIds, List.nodup_cons] at hndctx
      obtain ⟨hgnot2, hndrest⟩ := hndctx
      refine ⟨_, rotate_dir_eq_frame st P S g true hchild hG, ?_, ?_,
        fun q => black_rotate_dir (rotate_dir_eq_frame st P S g true hchild hG) q,
        fun q => key_rotate_dir (rotate_dir_eq_frame st P S g true hchild hG) q⟩
      · rw [hslot]
        refine ⟨?_, ?_, ?_, ?_, ?_, ?_, ?_⟩
        · refine IsCtx_congr ?_ ?_ hup
          · simp [rotChain, root_setChild, root_setParentPtr,
              root_setParentPtrIfSome]
          · intro j hj
            have hjg : j ≠ g := fun h => hgnot2 (by simp [← h, hj])
            have hjtree : j ∉ P :: ((S :: (idsT a ++ idsT b)) ++ idsT c) :=
              fun hh => hdisj (by simp [ctxIds, hj]) hh
            rw [mem_setChild, if_neg hjg]
            exact huntouched (some g) j (fun h => hjtree (by simp [h]))
              (fun h => hjtree (by simp [h]))
              (fun h => hjtree (by simp [rootPtr_mem h]))
        · cases fdir <;> simp [mem_setChild, hg5, hgB]
        · cases fdir <;> simp [mem_setChild, hg5, hgK]
        · cases fdir <;> simp [mem_setChild]
        · cases fdir <;> simp only [Bool.false_eq_true, if_false, if_true]
            at hgSib ⊢ <;> simp [mem_setChild, hg5, hgSib]
        · cases fdir <;> simp [mem_setChild, hg5, hgPar]
        · refine IsTree_congr ?_ hsibT
          intro j hj
          have hjg : j ≠ g := fun h => hgnot2 (by simp [← h, hj])
          rw [mem_setChild, if_neg hjg]
          have hjctx : j ∈ ctxIds (Ctx.frame up g cg fdir kg sibg) := by
            simp [ctxIds, hj]
          have hjtree : j ∉ P :: ((S :: (idsT a ++ idsT b)) ++ idsT c) :=
            fun hh => hdisj hjctx hh
          exact huntouched (some g) j (fun h => hjtree (by simp [h]))
            (fun h => hjtree (by simp [h]))
            (fun h => hjtree (by simp [rootPtr_mem h]))
      · refine IsTree_congr ?_ (htree5 (some g) rfl)
        intro j hj
        have hjpre : j ∈ P :: ((S :: (idsT a ++ idsT b)) ++ idsT c) := by
          simp only [idsT, List.mem_cons, List.mem_append] at hj ⊢
          tauto
        have hjg : j ≠ g := fun h => hgtree (h ▸ hjpre)
        rw [mem_setChild, if_neg hjg]

theorem rootPtr_postRot {K : Type} (dir : Bool) (P : Nat) (cp : Bool) (kp : K)
    (S : Nat) (cs : Bool) (ks : K) (a b c : ITree K) :
    rootPtr (postRot dir P cp kp S cs ks a b c) = some S := by
  cases dir <;> rfl

theorem keysT_fill_congr {K : Type} :
    ∀ (ctx : Ctx K) {t t' : ITree K}, keysT t' = keysT t →
      keysT (fill ctx t') = keysT (fill ctx t) := by
  intro ctx
  induction ctx with
  | top => intro t t' h; exact h
  | frame up i c dir k sib ih =>
    intro t t' h
    cases dir <;> simp only [fill, Bool.false_eq_true, if_false, if_true] <;>
      exact ih (by simp [keysT, h])

/-- C5: on a pivot `P` whose child opposite the rotation direction is the
non-empty subtree rooted at `S`, `rotate_dir` returns `S`, the whole tree
stays realized with every parent reference consistent (the former parent's
child slot — or the root reference — now holds `S`), the in-order key
sequence of the whole tree is unchanged, and no node's color changes. -/
theorem rotate_dir_correct {K : Type} {st : State K} {ctx : Ctx K} (dir : Bool)
    {P S : Nat} {cp cs : Bool} {kp ks : K} {a b c : ITree K}
    (hctx : IsCtx st ctx (some P))
    (ht : IsTree st (ctxPar ctx) (preRot dir P cp kp S cs ks a b c))
    (hnd : (ctxIds ctx ++ idsT (preRot dir P cp kp S cs ks a b c)).Nodup) :
    ∃ st', rotate_dir st P dir = some (st', S) ∧
      Realizes st' (fill ctx (postRot dir P cp kp S cs ks a b c)) ∧
      keysT (fill ctx (postRot dir P cp kp S cs ks a b c))
        = keysT (fill ctx (preRot dir P cp kp S cs ks a b c)) ∧
      (∀ q, (st'.mem q).black = (st.mem q).black) := by
  obtain ⟨st', hrun, hctx', ht', hblack, hkey⟩ := rotate_dir_sim dir hctx ht hnd
  have hctx'' : IsCtx st' ctx (rootPtr (postRot dir P cp kp S cs ks a b c)) := by
    rw [rootPtr_postRot]; exact hctx'
  have hfill := IsTree_fill hctx'' ht'
  have hnodup : (idsT (fill ctx (postRot dir P cp kp S cs ks a b c))).Nodup := by
    have h1 : (idsT (fill ctx (postRot dir P cp kp S cs ks a b c)) : Multiset Nat)
        = ((ctxIds ctx ++ idsT (preRot dir P cp kp S cs ks a b c) : List Nat)
            : Multiset Nat) := by
      rw [idsT_fill, idsT_postRot]
      exact Multiset.coe_add _ _
    have h2 := Multiset.coe_nodup.mpr hnd
    rw [← h1] at h2
    exact Multiset.coe_nodup.mp h2
  exact ⟨st', hrun, ⟨hfill.1, hfill.2, hnodup⟩,
    keysT_fill_congr ctx (keysT_postRot dir P cp kp S cs ks a b c), hblack⟩

/-- A two-node heap used as witness input: BLACK root `0` (key 10) with RED
right child `1` (key 20). -/
def stRot : State Int :=
  { root := some 0,
    mem := fun q =>
      if q = 0 then ⟨none, true, none, some 1, 10⟩
      else if q = 1 then ⟨some 0, false, none, none, 20⟩
      else ⟨none, false, none, none, 0⟩ }

/-- Witness for C5 at a concrete input: left-rotating the two-node tree. -/
theorem rotate_dir_correct_witness :
    ∃ st', rotate_dir stRot 0 false = some (st', 1) ∧
      Realizes st' (fill Ctx.top
        (postRot false 0 true (10 : Int) 1 false 20 .nil .nil .nil)) ∧
      keysT (fill Ctx.top (postRot false 0 true (10 : Int) 1 false 20 .nil .nil .nil))
        = keysT (fill Ctx.top (preRot false 0 true (10 : Int) 1 false 20 .nil .nil .nil)) ∧
      (∀ q, (st'.mem q).black = (stRot.mem q).black) :=
  rotate_dir_correct false (by decide)
    (by simp [preRot, IsTree, stRot, rootPtr, ctxPar, Ctx.ctxPar])
    (by decide)

/-! ### Local shape of a one-child node in a tree satisfying invariants 3-4 -/

theorem nrrB_fill_sub {K : Type} :
    ∀ (ctx : Ctx K) {t : ITree K}, nrrB (fill ctx t) = true → nrrB t = true := by
  intro ctx
  induction ctx with
  | top => intro t h; exact h
  | frame up i c dir k sib ih =>
    intro t h
    cases dir <;>
      simp only [fill, Bool.false_eq_true, if_false, if_true] at h
    · have h2 := ih h
      simp only [nrrB, Bool.and_eq_true] at h2
      exact h2.1.2
    · have h2 := ih h
      simp only [nrrB, Bool.and_eq_true] at h2
      exact h2.2

theorem bhT_fill_sub {K : Type} :
    ∀ (ctx : Ctx K) {t : ITree K}, (bhT (fill ctx t)).isSome →
      (bhT t).isSome := by
  intro ctx
  induction ctx with
  | top => intro t h; exact h
  | frame up i c dir k sib ih =>
    intro t h
    cases dir <;>
      simp only [fill, Bool.false_eq_true, if_false, if_true] at h
    · have h2 := ih h
      rw [bhT] at h2
      rcases hl : bhT t with _ | bl <;> rcases hr : bhT sib with _ | br <;>
        simp_all
    · have h2 := ih h
      rw [bhT] at h2
      rcases hl : bhT sib with _ | bl <;> rcases hr : bhT t with _ | br <;>
        simp_all

theorem bhT_fill_congr {K : Type} :
    ∀ (ctx : Ctx K) {t t' : ITree K}, bhT t' = bhT t →
      bhT (fill ctx t') = bhT (fill ctx t) := by
  intro ctx
  induction ctx with
  | top => intro t t' h; exact h
  | frame up i c dir k sib ih =>
    intro t t' h
    cases dir <;> simp only [fill, Bool.false_eq_true, if_false, if_true] <;>
      exact ih (by rw [bhT, bhT, h])

theorem bhT_zero_black_nil {K : Type} {t : ITree K} (hbh : bhT t = some 0)
    (hred : rootRed t = false) : t = ITree.nil := by
  cases t with
  | nil => rfl
  | node i2 c2 l2 k2 r2 =>
    simp only [rootRed, Bool.not_eq_false'] at hred
    rw [bhT] at hbh
    rcases h1 : bhT l2 with _ | b1 <;> rw [h1, Option.bind] at hbh
    · cases hbh
    rcases h2 : bhT r2 with _ | b2 <;> rw [h2, Option.bind] at hbh
    · cases hbh
    rw [hred] at hbh
    by_cases hb : b1 = b2
    · rw [if_pos hb] at hbh
      simp at hbh
    · rw [if_neg hb] at hbh
      cases hbh

/-- In a subtree satisfying no-red-red and consistent black-height whose left
child is absent and right child present, the node is BLACK and the right child
is a single RED node. -/
theorem one_child_right {K : Type} {i j : Nat} {c cj : Bool} {k kj : K}
    {rl rr : ITree K}
    (hnrr : nrrB (ITree.node i c .nil k (ITree.node j cj rl kj rr)) = true)
    (hbh : (bhT (ITree.node i c .nil k (ITree.node j cj rl kj rr))).isSome) :
    c = true ∧ cj = false ∧ rl = ITree.nil ∧ rr = ITree.nil := by
  simp only [bhT, Option.some_bind] at hbh
  rcases h1 : bhT rl with _ | b1 <;> rw [h1] at hbh <;>
    simp only [Option.some_bind, Option.none_bind] at hbh
  · simp at hbh
  rcases h2 : bhT rr with _ | b2 <;> rw [h2] at hbh <;>
    simp only [Option.some_bind, Option.none_bind] at hbh
  · simp at hbh
  by_cases hb12 : b1 = b2
  case neg => simp [hb12] at hbh
  subst hb12
  simp only [if_pos rfl] at hbh
  by_cases hz : 0 = b1 + (if cj then 1 else 0)
  case neg => simp [hz] at hbh
  have hcj : cj = false := by
    cases cj
    · rfl
    · simp at hz
  subst hcj
  simp only [Bool.false_eq_true, if_false, Nat.add_zero] at hz
  have hb1 : b1 = 0 := hz.symm
  subst hb1
  simp only [nrrB, rootRed, Bool.not_true, Bool.not_false, Bool.and_true,
    Bool.and_false, Bool.or_false, Bool.false_or, Bool.and_eq_true,
    Bool.not_eq_true'] at hnrr
  obtain ⟨hc, ⟨⟨hrl, hrr⟩, _⟩, _⟩ := hnrr
  exact ⟨hc, rfl, bhT_zero_black_nil h1 hrl, bhT_zero_black_nil h2 hrr⟩

/-- Mirror of `one_child_right`: left child present, right child absent. -/
theorem one_child_left {K : Type} {i j : Nat} {c cj : Bool} {k kj : K}
    {ll lr : ITree K}
    (hnrr : nrrB (ITree.node i c (ITree.node j cj ll kj lr) k .nil) = true)
    (hbh : (bhT (ITree.node i c (ITree.node j cj ll kj lr) k .nil)).isSome) :
    c = true ∧ cj = false ∧ ll = ITree.nil ∧ lr = ITree.nil := by
  simp only [bhT, Option.some_bind] at hbh
  rcases h1 : bhT ll with _ | b1 <;> rw [h1] at hbh <;>
    simp only [Option.some_bind, Option.none_bind] at hbh
  · simp at hbh
  rcases h2 : bhT lr with _ | b2 <;> rw [h2] at hbh <;>
    simp only [Option.some_bind, Option.none_bind] at hbh
  · simp at hbh
  by_cases hb12 : b1 = b2
  case neg => simp [hb12] at hbh
  subst hb12
  simp only [if_pos rfl] at hbh
  by_cases hz : b1 + (if cj then 1 else 0) = 0
  case neg => simp [hz] at hbh
  have hcj : cj = false := by
    cases cj
    · rfl
    · simp at hz
  subst hcj
  simp only [Bool.false_eq_true, if_false, Nat.add_zero] at hz
  subst hz
  simp only [nrrB, rootRed, Bool.not_true, Bool.not_false, Bool.and_true,
    Bool.and_false, Bool.or_false, Bool.false_or, Bool.and_eq_true,
    Bool.not_eq_true'] at hnrr
  obtain ⟨hc, ⟨⟨hll, hlr⟩, _⟩, _⟩ := hnrr
  exact ⟨hc, rfl, bhT_zero_black_nil h1 hll, bhT_zero_black_nil h2 hlr⟩

/-- The one-non-empty-child branch of `delete_node`: recolor the child BLACK,
transplant it into the node's position, reinitialize the node — no call to
the deletion fixup occurs on this path. -/
theorem delete_node_one_child_eq {K : Type} {st : State K} {p j : Nat}
    (fuel : Nat)
    (h : ((st.mem p).left = none ∧ (st.mem p).right = some j) ∨
         ((st.mem p).left = some j ∧ (st.mem p).right = none)) :
    delete_node st p fuel = some (
      setParentPtr ((node_transplant (setColorToBlack st j) p (some j)).write p
        { (node_transplant (setColorToBlack st j) p (some j)).mem p with
          left := none, right := none }) p none, p) := by
  unfold delete_node delete_node_main
  rcases h with ⟨hL, hR⟩ | ⟨hL, hR⟩ <;> rw [hL, hR] <;> simp [child, hL, hR]

/-- Realization after deleting a one-child node: the recolored child takes the
node's place in the hole of the context. -/
theorem delete_one_child_realizes {K : Type} {st : State K} {ctx : Ctx K}
    {p j : Nat} {kj : K}
    (hctx : IsCtx st ctx (some p))
    (hppar : (st.mem p).parent = ctxPar ctx)
    (hjpar : (st.mem j).parent = some p) (hjb : (st.mem j).black = false)
    (hjl : (st.mem j).left = none) (hjr : (st.mem j).right = none)
    (hjk : (st.mem j).key = kj)
    (hnd : (ctxIds ctx ++ [p, j]).Nodup) :
    Realizes (setParentPtr
      ((node_transplant (setColorToBlack st j) p (some j)).write p
        { (node_transplant (setColorToBlack st j) p (some j)).mem p with
          left := none, right := none }) p none)
      (fill ctx (ITree.node j true .nil kj .nil)) := by
  have hdisj := List.disjoint_of_nodup_append hnd
  have hndC := hnd.of_append_left
  have hpj : p ≠ j := by
    have h2 := hnd.of_append_right
    simp [List.nodup_cons] at h2
    exact h2
  have hjp : j ≠ p := fun h => hpj h.symm
  have hctxp : ∀ x, x ∈ ctxIds ctx → x ≠ p ∧ x ≠ j := by
    intro x hx
    exact ⟨fun h => hdisj hx (by simp [h]), fun h => hdisj hx (by simp [h])⟩
  have hnodupNew : (idsT (fill ctx (ITree.node j true .nil kj .nil))).Nodup := by
    have h1 : (idsT (fill ctx (ITree.node j true .nil kj .nil)) : Multiset Nat)
        = ((ctxIds ctx ++ [j] : List Nat) : Multiset Nat) := by
      rw [idsT_fill,
        show idsT (ITree.node j true (ITree.nil : ITree K) kj .nil) = [j] from rfl]
      exact Multiset.coe_add _ _
    have hsub : (ctxIds ctx ++ [j]).Nodup := by
      refine List.Nodup.sublist ?_ hnd
      exact List.Sublist.append_left (List.sublist_cons_self p [j]) _
    have h2 := Multiset.coe_nodup.mpr hsub
    rw [← h1] at h2
    exact Multiset.coe_nodup.mp h2
  have hppar1 : ((setColorToBlack st j).mem p).parent = ctxPar ctx := by
    rw [mem_setColorToBlack, if_neg hpj]
    exact hppar
  cases ctx with
  | top =>
    have htransTop : node_transplant (setColorToBlack st j) p (some j)
        = setParentPtr { setColorToBlack st j with root := some j } j none := by
      unfold node_transplant
      rw [show ((setColorToBlack st j).mem p).parent = none from hppar1]
    rw [htransTop]
    have hmemjT : (setParentPtr ((setParentPtr
        { setColorToBlack st j with root := some j } j none).write p
          { (setParentPtr { setColorToBlack st j with root := some j } j
              none).mem p with left := none, right := none }) p none).mem j
        = { st.mem j with black := true, parent := none } := by
      simp [mem_setParentPtr, mem_write, mem_setColorToBlack, hjp]
    have hrootT : (setParentPtr ((setParentPtr
        { setColorToBlack st j with root := some j } j none).write p
          { (setParentPtr { setColorToBlack st j with root := some j } j
              none).mem p with left := none, right := none }) p none).root
        = some j := rfl
    have htNewT : IsTree (setParentPtr ((setParentPtr
        { setColorToBlack st j with root := some j } j none).write p
          { (setParentPtr { setColorToBlack st j with root := some j } j
              none).mem p with left := none, right := none }) p none)
        (ctxPar (Ctx.top : Ctx K)) (ITree.node j true .nil kj .nil) := by
      refine ⟨?_, ?_, ?_, ?_, ?_, trivial, trivial⟩ <;> rw [hmemjT] <;>
        first
        | rfl
        | exact hjl
        | exact hjr
        | exact hjk
    have hfill := IsTree_fill (show IsCtx _ Ctx.top
      (rootPtr (ITree.node j true (ITree.nil : ITree K) kj .nil)) from hrootT)
      htNewT
    exact ⟨hfill.1, hfill.2, hnodupNew⟩
  | frame up g cg fdir kg sibg =>
    obtain ⟨hup, hgB, hgK, hgHole, hgSib, hgPar, hsibT⟩ := hctx
    have hgp : g ≠ p := (hctxp g (by simp [ctxIds])).1
    have hgj : g ≠ j := (hctxp g (by simp [ctxIds])).2
    have hjg : j ≠ g := fun h => hgj h.symm
    have hsibp : rootPtr sibg ≠ some p := by
      intro h
      exact (hctxp p (by simp [ctxIds, rootPtr_mem h])).1 rfl
    have hg1 : (setColorToBlack st j).mem g = st.mem g := by
      rw [mem_setColorToBlack, if_neg hgj]
    have hslot : (if ((setColorToBlack st j).mem g).left = some p then false
        else true) = fdir := by
      rw [hg1]
      cases fdir
      · simp only [Bool.false_eq_true, if_false] at hgHole
        simp [hgHole]
      · simp only [if_true] at hgHole hgSib
        rw [hgSib, if_neg hsibp]
    have htrans : node_transplant (setColorToBlack st j) p (some j)
        = setParentPtr (setChild (setColorToBlack st j) g fdir (some j)) j
            (some g) := by
      unfold node_transplant
      rw [show ((setColorToBlack st j).mem p).parent = some g from hppar1]
      simp only []
      rw [hslot]
    rw [htrans]
    have hndctx := hndC
    simp only [ctxIds, List.nodup_cons] at hndctx
    obtain ⟨hgnot2, hndrest⟩ := hndctx
    have hmemfin : ∀ x, x ≠ p → x ≠ j → x ≠ g →
        ((setParentPtr ((setParentPtr (setChild (setColorToBlack st j) g fdir
            (some j)) j (some g)).write p
          { (setParentPtr (setChild (setColorToBlack st j) g fdir (some j)) j
              (some g)).mem p with left := none, right := none }) p none).mem x)
          = st.mem x := by
      intro x hxp hxj hxg
      cases fdir <;>
        simp [mem_setParentPtr, mem_write, mem_setChild, mem_setColorToBlack,
          hxp, hxj, hxg]
    have hmemg :
        ((setParentPtr ((setParentPtr (setChild (setColorToBlack st j) g fdir
            (some j)) j (some g)).write p
          { (setParentPtr (setChild (setColorToBlack st j) g fdir (some j)) j
              (some g)).mem p with left := none, right := none }) p none).mem g)
          = (if fdir then { st.mem g with right := some j }
             else { st.mem g with left := some j }) := by
      cases fdir <;>
        simp [mem_setParentPtr, mem_write, mem_setChild, mem_setColorToBlack,
          hgp, hgj]
    have hmemj :
        ((setParentPtr ((setParentPtr (setChild (setColorToBlack st j) g fdir
            (some j)) j (some g)).write p
          { (setParentPtr (setChild (setColorToBlack st j) g fdir (some j)) j
              (some g)).mem p with left := none, right := none }) p none).mem j)
          = { st.mem j with black := true, parent := some g } := by
      cases fdir <;>
        simp [mem_setParentPtr, mem_write, mem_setChild, mem_setColorToBlack,
          hjp, hjg]
    have hroot :
        ((setParentPtr ((setParentPtr (setChild (setColorToBlack st j) g fdir
            (some j)) j (some g)).write p
          { (setParentPtr (setChild (setColorToBlack st j) g fdir (some j)) j
              (some g)).mem p with left := none, right := none }) p none).root)
          = st.root := by
      cases fdir <;> rfl
    have hctxNew : IsCtx (setParentPtr ((setParentPtr (setChild
        (setColorToBlack st j) g fdir (some j)) j (some g)).write p
          { (setParentPtr (setChild (setColorToBlack st j) g fdir (some j)) j
              (some g)).mem p with left := none, right := none }) p none)
        (Ctx.frame up g cg fdir kg sibg) (some j) := by
      refine ⟨?_, ?_, ?_, ?_, ?_, ?_, ?_⟩
      · refine IsCtx_congr hroot ?_ hup
        intro x hx
        have hxg : x ≠ g := fun h => hgnot2 (by simp [← h, hx])
        exact hmemfin x (hctxp x (by simp [ctxIds, hx])).1
          (hctxp x (by simp [ctxIds, hx])).2 hxg
      · rw [hmemg]; cases fdir <;> simpa using hgB
      · rw [hmemg]; cases fdir <;> simpa using hgK
      · rw [hmemg]; cases fdir <;> simp
      · rw [hmemg]
        cases fdir <;> simp only [Bool.false_eq_true, if_false, if_true]
          at hgSib ⊢ <;> simpa using hgSib
      · rw [hmemg]; cases fdir <;> simpa using hgPar
      · refine IsTree_congr ?_ hsibT
        intro x hx
        have hxg : x ≠ g := fun h => hgnot2 (by simp [← h, hx])
        exact hmemfin x (hctxp x (by simp [ctxIds, hx])).1
          (hctxp x (by simp [ctxIds, hx])).2 hxg
    have htNew : IsTree (setParentPtr ((setParentPtr (setChild
        (setColorToBlack st j) g fdir (some j)) j (some g)).write p
          { (setParentPtr (setChild (setColorToBlack st j) g fdir (some j)) j
              (some g)).mem p with left := none, right := none }) p none)
        (ctxPar (Ctx.frame up g cg fdir kg sibg)) (ITree.node j true .nil kj .nil) := by
      refine ⟨?_, ?_, ?_, ?_, ?_, trivial, trivial⟩ <;> rw [hmemj] <;>
        first
        | rfl
        | exact hjl
        | exact hjr
        | exact hjk
    have hfill := IsTree_fill (show IsCtx _ (Ctx.frame up g cg fdir kg sibg)
      (rootPtr (ITree.node j true (ITree.nil : ITree K) kj .nil)) from hctxNew)
      htNew
    exact ⟨hfill.1, hfill.2, hnodupNew⟩

/-- C6: in a tree satisfying no-red-red and black-height consistency, a node
with exactly one non-empty child is BLACK and that child is a single RED
node (the branch's assertions hold); `delete_node` recolors the child BLACK
and transplants it into the node's position — the resulting state is exactly
recolor + transplant + reinitialize, with no deletion fixup invoked — and the
black-height of the whole tree is preserved exactly. -/
theorem delete_node_one_child {K : Type} {st : State K} {ctx : Ctx K}
    {p : Nat} {cp : Bool} {k : K} {l r : ITree K} (fuel : Nat)
    (hctx : IsCtx st ctx (some p))
    (ht : IsTree st (ctxPar ctx) (ITree.node p cp l k r))
    (hnd : (ctxIds ctx ++ idsT (ITree.node p cp l k r)).Nodup)
    (hnrr : nrrB (fill ctx (ITree.node p cp l k r)) = true)
    (hbh : (bhT (fill ctx (ITree.node p cp l k r))).isSome)
    (hone : (l = ITree.nil ∧ r ≠ ITree.nil) ∨ (l ≠ ITree.nil ∧ r = ITree.nil)) :
    cp = true ∧ (st.mem p).black = true ∧
    ∃ j kj,
      ((l = ITree.nil ∧ r = ITree.node j false .nil kj .nil) ∨
       (r = ITree.nil ∧ l = ITree.node j false .nil kj .nil)) ∧
      (st.mem j).black = false ∧
      delete_node st p fuel = some (
        setParentPtr ((node_transplant (setColorToBlack st j) p (some j)).write p
          { (node_transplant (setColorToBlack st j) p (some j)).mem p with
            left := none, right := none }) p none, p) ∧
      Realizes (setParentPtr
        ((node_transplant (setColorToBlack st j) p (some j)).write p
          { (node_transplant (setColorToBlack st j) p (some j)).mem p with
            left := none, right := none }) p none)
        (fill ctx (ITree.node j true .nil kj .nil)) ∧
      bhT (fill ctx (ITree.node j true .nil kj .nil))
        = bhT (fill ctx (ITree.node p cp l k r)) := by
  have hnrrS := nrrB_fill_sub ctx hnrr
  have hbhS := bhT_fill_sub ctx hbh
  rcases hone with ⟨hl, hr⟩ | ⟨hl, hr⟩
  · subst hl
    rcases hrt : r with _ | ⟨j, cj, rl, kj, rr⟩
    · exact absurd hrt hr
    subst hrt
    obtain ⟨hcp, hcj, hrl, hrr⟩ := one_child_right hnrrS hbhS
    subst hcp
    subst hcj
    subst hrl
    subst hrr
    obtain ⟨hppar, hpb, hpl, hpr, hpk, _, hjt⟩ := ht
    obtain ⟨hjpar, hjb, hjl, hjr, hjk, _, _⟩ := hjt
    simp only [rootPtr] at hpl hpr hjl hjr
    refine ⟨rfl, hpb, j, kj, Or.inl ⟨rfl, rfl⟩, hjb, ?_, ?_, ?_⟩
    · exact delete_node_one_child_eq fuel (Or.inl ⟨hpl, hpr⟩)
    · exact delete_one_child_realizes hctx hppar hjpar hjb hjl hjr hjk hnd
    · exact bhT_fill_congr ctx (by rfl)
  · subst hr
    rcases hlt : l with _ | ⟨j, cj, ll, kj, lr⟩
    · exact absurd hlt hl
    subst hlt
    obtain ⟨hcp, hcj, hll, hlr⟩ := one_child_left hnrrS hbhS
    subst hcp
    subst hcj
    subst hll
    subst hlr
    obtain ⟨hppar, hpb, hpl, hpr, hpk, hjt, _⟩ := ht
    obtain ⟨hjpar, hjb, hjl, hjr, hjk, _, _⟩ := hjt
    simp only [rootPtr] at hpl hpr hjl hjr
    refine ⟨rfl, hpb, j, kj, Or.inr ⟨rfl, rfl⟩, hjb, ?_, ?_, ?_⟩
    · exact delete_node_one_child_eq fuel (Or.inr ⟨hpl, hpr⟩)
    · refine delete_one_child_realizes hctx hppar hjpar hjb hjl hjr hjk ?_
      have hsub : (ctxIds ctx ++ [p, j]).Sublist
          (ctxIds ctx ++ idsT (ITree.node p true
            (ITree.node j false .nil kj .nil) k .nil)) := by
        refine List.Sublist.append_left ?_ _
        simp [idsT]
      exact hsub.nodup hnd
    · exact bhT_fill_congr ctx (by rfl)

/-- Witness for C6 at a concrete input: the two-node tree of `stRot`
(BLACK root `0`, RED right child `1`), deleting the root `0`. -/
theorem delete_node_one_child_witness :
    true = true ∧ (stRot.mem 0).black = true ∧
    ∃ j kj,
      ((ITree.nil = (ITree.nil : ITree Int) ∧
        ITree.node 1 false .nil (20 : Int) .nil = ITree.node j false .nil kj .nil) ∨
       (ITree.node 1 false .nil (20 : Int) .nil = ITree.nil ∧
        ITree.nil = ITree.node j false .nil kj .nil)) ∧
      (stRot.mem j).black = false ∧
      delete_node stRot 0 1 = some (
        setParentPtr ((node_transplant (setColorToBlack stRot j) 0 (some j)).write 0
          { (node_transplant (setColorToBlack stRot j) 0 (some j)).mem 0 with
            left := none, right := none }) 0 none, 0) ∧
      Realizes (setParentPtr
        ((node_transplant (setColorToBlack stRot j) 0 (some j)).write 0
          { (node_transplant (setColorToBlack stRot j) 0 (some j)).mem 0 with
            left := none, right := none }) 0 none)
        (fill Ctx.top (ITree.node j true .nil kj .nil)) ∧
      bhT (fill Ctx.top (ITree.node j true .nil kj .nil))
        = bhT (fill Ctx.top (ITree.node 0 true .nil (10 : Int)
            (ITree.node 1 false .nil 20 .nil))) :=
  delete_node_one_child 1 (by decide)
    (by simp [IsTree, stRot, rootPtr, Ctx.ctxPar])
    (by decide) (by decide) (by decide) (Or.inl ⟨rfl, by decide⟩)

/-! ### No-red-red and black-height through a context -/

/-- Color of the innermost frame node (`true` at the top). -/
def frameBlack {K : Type} : Ctx K → Bool
  | .top => true
  | .frame _ _ c _ _ _ => c

@[simp] theorem frameBlack_top {K : Type} : frameBlack (Ctx.top : Ctx K) = true := rfl

@[simp] theorem frameBlack_frame {K : Type} (up : Ctx K) (i : Nat) (c : Bool)
    (dir : Bool) (k : K) (sib : ITree K) :
    frameBlack (Ctx.frame up i c dir k sib) = c := rfl

/-- The context's own no-red-red consistency (ignoring the hole). -/
def nrrCtxB {K : Type} : Ctx K → Bool
  | .top => true
  | .frame up _ c _ _ sib =>
    nrrCtxB up && nrrB sib && (frameBlack up || c) && (c || !rootRed sib)

@[simp] theorem rootRed_nil {K : Type} : rootRed (ITree.nil : ITree K) = false := rfl

@[simp] theorem rootRed_node {K : Type} (i : Nat) (c : Bool) (l : ITree K)
    (k : K) (r : ITree K) : rootRed (ITree.node i c l k r) = !c := rfl

theorem nrrB_fill_eq {K : Type} :
    ∀ (ctx : Ctx K) (t : ITree K),
      nrrB (fill ctx t)
        = (nrrCtxB ctx && nrrB t && (frameBlack ctx || !rootRed t)) := by
  intro ctx
  induction ctx with
  | top => intro t; simp [fill, nrrCtxB, frameBlack]
  | frame up i c dir k sib ih =>
    intro t
    cases dir <;>
      simp only [fill, Bool.false_eq_true, if_false, if_true, ih, nrrB,
        nrrCtxB, frameBlack_frame, rootRed_node, Bool.not_not] <;>
      · generalize nrrCtxB up = x1
        generalize nrrB sib = x2
        generalize frameBlack up = x3
        generalize rootRed sib = x4
        generalize nrrB t = x5
        generalize rootRed t = x6
        cases x1 <;> cases x2 <;> cases x3 <;> cases x4 <;> cases x5 <;>
          cases x6 <;> cases c <;> rfl

/-- Black-height consistency of the context, given the hole subtree's
black-height `b`. -/
def bhCtxOk {K : Type} : Ctx K → Nat → Bool
  | .top, _ => true
  | .frame up _ c _ _ sib, b =>
    (bhT sib == some b) && bhCtxOk up (b + (if c then 1 else 0))

theorem bhT_fill_isSome {K : Type} :
    ∀ (ctx : Ctx K) (t : ITree K),
      (bhT (fill ctx t)).isSome ↔
        ∃ b, bhT t = some b ∧ bhCtxOk ctx b = true := by
  intro ctx
  induction ctx with
  | top =>
    intro t
    simp only [fill, bhCtxOk, and_true]
    rcases h : bhT t with _ | b <;> simp [h]
  | frame up i c dir k sib ih =>
    intro t
    cases dir <;>
      simp only [fill, Bool.false_eq_true, if_false, if_true, ih]
    · constructor
      · rintro ⟨b', hb', hok⟩
        rw [bhT] at hb'
        rcases h1 : bhT t with _ | bt <;> rw [h1] at hb' <;>
          simp only [Option.some_bind, Option.none_bind] at hb'
        · cases hb'
        rcases h2 : bhT sib with _ | bs <;> rw [h2] at hb' <;>
          simp only [Option.some_bind, Option.none_bind] at hb'
        · cases hb'
        by_cases hbe : bt = bs
        · subst hbe
          rw [if_pos rfl] at hb'
          refine ⟨bt, rfl, ?_⟩
          simp only [bhCtxOk, h2, beq_self_eq_true, Bool.true_and]
          simp only [Option.some.injEq] at hb'
          rw [hb']
          exact hok
        · rw [if_neg hbe] at hb'
          cases hb'
      · rintro ⟨b, hb, hok⟩
        simp only [bhCtxOk, Bool.and_eq_true, beq_iff_eq] at hok
        exact ⟨b + (if c then 1 else 0), by rw [bhT, hb, hok.1]; simp, hok.2⟩
    · constructor
      · rintro ⟨b', hb', hok⟩
        rw [bhT] at hb'
        rcases h2 : bhT sib with _ | bs <;> rw [h2] at hb' <;>
          simp only [Option.some_bind, Option.none_bind] at hb'
        · cases hb'
        rcases h1 : bhT t with _ | bt <;> rw [h1] at hb' <;>
          simp only [Option.some_bind, Option.none_bind] at hb'
        · cases hb'
        by_cases hbe : bs = bt
        · subst hbe
          rw [if_pos rfl] at hb'
          refine ⟨bs, rfl, ?_⟩
          simp only [bhCtxOk, h2, beq_self_eq_true, Bool.true_and]
          simp only [Option.some.injEq] at hb'
          rw [hb']
          exact hok
        · rw [if_neg hbe] at hb'
          cases hb'
      · rintro ⟨b, hb, hok⟩
        simp only [bhCtxOk, Bool.and_eq_true, beq_iff_eq] at hok
        exact ⟨b + (if c then 1 else 0),
          by rw [bhT, hb, hok.1]; simp, hok.2⟩

theorem fill_eq_nil {K : Type} :
    ∀ {ctx : Ctx K} {t : ITree K}, fill ctx t = ITree.nil →
      ctx = Ctx.top ∧ t = ITree.nil := by
  intro ctx
  induction ctx with
  | top => intro t h; exact ⟨rfl, h⟩
  | frame up i c dir k sib ih =>
    intro t h
    cases dir <;>
      simp only [fill, Bool.false_eq_true, if_false, if_true] at h <;>
      exact absurd (ih h).2 (by simp)

/-- The descent loop of `insert_node` reaches an empty position, described by
a context that refines the tree; the final frame's direction agrees with the
comparison the linking step recomputes. -/
theorem insert_descend_spec {K : Type} (lt : K → K → Bool) (st : State K)
    (key : K) :
    ∀ (t : ITree K) (ctx : Ctx K) (fuel : Nat), heightT t < fuel →
      IsCtx st ctx (rootPtr t) → IsTree st (ctxPar ctx) t →
      (∀ up i c d kL sib, ctx = Ctx.frame up i c d kL sib → d = lt kL key) →
      ∃ ctx', insert_descend lt st key fuel (ctxPar ctx) (rootPtr t)
          = some (ctxPar ctx') ∧
        fill ctx' ITree.nil = fill ctx t ∧
        IsCtx st ctx' none ∧
        ((ctxIds ctx' : Multiset Nat) = ↑(ctxIds ctx) + ↑(idsT t)) ∧
        (∀ up i c d kL sib, ctx' = Ctx.frame up i c d kL sib →
          d = lt kL key) := by
  intro t
  induction t with
  | nil =>
    intro ctx fuel hfuel hctx ht hlast
    refine ⟨ctx, ?_, rfl, hctx, by simp [idsT], hlast⟩
    cases fuel <;> rfl
  | node i c l k r ihl ihr =>
    intro ctx fuel hfuel hctx ht hlast
    obtain ⟨hpar, hblack, hleft, hright, hkey, hl, hr⟩ := ht
    cases fuel with
    | zero => exact absurd hfuel (by simp)
    | succ f =>
      by_cases hdir : lt k key = true
      · have hstep : insert_descend lt st key (f + 1) (ctxPar ctx)
            (rootPtr (ITree.node i c l k r))
            = insert_descend lt st key f (some i) (st.mem i).right := by
          simp [insert_descend, rootPtr, hkey, hdir]
        have hctx2 : IsCtx st (Ctx.frame ctx i c true k l) (rootPtr r) := by
          exact ⟨hctx, hblack, hkey, by simpa using hright, by simpa using hleft,
            hpar, hl⟩
        have hheight : heightT r < f := by
          simp only [heightT] at hfuel
          omega
        have hlast2 : ∀ (up : Ctx K) i' c' d' (kL : K) sib,
            Ctx.frame ctx i c true k l = Ctx.frame up i' c' d' kL sib →
            d' = lt kL key := by
          rintro up i' c' d' kL sib ⟨⟩
          exact hdir.symm
        obtain ⟨ctx', h1, h2, h3, h4, h5⟩ := ihr (Ctx.frame ctx i c true k l)
          f hheight hctx2 hr hlast2
        refine ⟨ctx', ?_, ?_, h3, ?_, h5⟩
        · rw [hstep, hright, ← h1]
          rfl
        · rw [h2]
          show fill (Ctx.frame _ _ _ _ _ _) _ = _
          rfl
        · rw [h4]
          simp only [ctxIds, ← Multiset.cons_coe, ← Multiset.coe_add,
            ← Multiset.singleton_add, idsT]
          abel
      · have hstep : insert_descend lt st key (f + 1) (ctxPar ctx)
            (rootPtr (ITree.node i c l k r))
            = insert_descend lt st key f (some i) (st.mem i).left := by
          simp [insert_descend, rootPtr, hkey, hdir]
        have hctx2 : IsCtx st (Ctx.frame ctx i c false k r) (rootPtr l) := by
          exact ⟨hctx, hblack, hkey, by simpa using hleft, by simpa using hright,
            hpar, hr⟩
        have hheight : heightT l < f := by
          simp only [heightT] at hfuel
          omega
        have hlast2 : ∀ (up : Ctx K) i' c' d' (kL : K) sib,
            Ctx.frame ctx i c false k r = Ctx.frame up i' c' d' kL sib →
            d' = lt kL key := by
          rintro up i' c' d' kL sib ⟨⟩
          simp only [Bool.not_eq_true] at hdir
          exact hdir.symm
        obtain ⟨ctx', h1, h2, h3, h4, h5⟩ := ihl (Ctx.frame ctx i c false k r)
          f hheight hctx2 hl hlast2
        refine ⟨ctx', ?_, ?_, h3, ?_, h5⟩
        · rw [hstep, hleft, ← h1]
          rfl
        · rw [h2]
          show fill (Ctx.frame _ _ _ _ _ _) _ = _
          rfl
        · rw [h4]
          simp only [ctxIds, ← Multiset.cons_coe, ← Multiset.coe_add,
            ← Multiset.singleton_add, idsT]
          abel

end RB
